import Mathlib

/-!
Verification development for the SmartLabelManager text-fitting engine
(src/packages/smartlabel/src/SmartlabelManager.js).

The engine is embedded shallowly: JS strings become lists of characters,
pixel measurements become a pluggable oracle (a pair of functions giving the
width and height the DOM measurement surface would report for a given
innerHTML string), and the mutable caches become explicitly threaded state.
Only the plain-text (tag-free) path of getSmartText is modelled, which is the
path all the analysed claims concern.  Numbers are rationals.
-/

set_option maxRecDepth 10000

namespace Smartlabel

/-! ## JS-semantics helpers -/

/-- Whitespace per the JS regexes used by the source (space, tab, newline, return). -/
def isWs (c : Char) : Bool :=
  c = ' ' || c = '\t' || c = '\n' || c = '\r'

/-- Drop trailing whitespace, as the while-loop in fastTrim does. -/
def dropTrailWs (l : List Char) : List Char :=
  (l.reverse.dropWhile isWs).reverse

/-- fastTrim from getSmartText: strip the leading whitespace run, then strip
trailing whitespace one character at a time. -/
def fastTrim (l : List Char) : List Char :=
  dropTrailWs (l.dropWhile isWs)

/-- Helper for collapseWs carrying a flag saying whether the previous character
was part of a whitespace run already emitted. -/
def collapseWsAux : Bool → List Char → List Char
  | _, [] => []
  | prevWs, c :: rest =>
    if isWs c then
      if prevWs then collapseWsAux true rest
      else ' ' :: collapseWsAux true rest
    else c :: collapseWsAux false rest

/-- The replace of whitespace runs by a single space done by
text.replace with the global whitespace-run pattern in getSmartText. -/
def collapseWs (l : List Char) : List Char :=
  collapseWsAux false l

/-- The replace of the ampersand-lt and ampersand-gt escapes by the plain
angle brackets done before measuring the unconstrained size (the source
converts them so the measured width matches what is rendered). -/
def ltgtReplace : List Char → List Char
  | '&' :: 'l' :: 't' :: ';' :: rest => '<' :: ltgtReplace rest
  | '&' :: 'g' :: 't' :: ';' :: rest => '>' :: ltgtReplace rest
  | c :: rest => c :: ltgtReplace rest
  | [] => []

/-- JS Math.round: floor of the argument plus one half. -/
def jsRound (q : ℚ) : ℚ :=
  ((⌊q + (1 : ℚ)/2⌋ : ℤ) : ℚ)

/-- Normalize a possibly negative JS array index the way
Array.prototype.slice does: negative indices count from the end (clamped at
zero), positive ones are clamped at the length. -/
def normIdx (len : Nat) (v : Int) : Nat :=
  if v < 0 then ((len : Int) + v).toNat else min v.toNat len

/-- JS Array.prototype.slice with possibly negative bounds. -/
def jsSliceL (l : List α) (s e : Int) : List α :=
  (l.take (normIdx l.length e)).drop (normIdx l.length s)

/-- JS array element assignment a[i] = v where i never exceeds the length in
the modelled runs; an index beyond the length pads with the given filler the
way JS pads with undefined. -/
def jsSetElem (l : List α) (i : Nat) (v : α) (pad : α) : List α :=
  if i < l.length then l.set i v
  else l ++ List.replicate (i - l.length) pad ++ [v]

/-- Helper for lastIndexOfC tracking the current position and best hit. -/
def lastIdxAux (c : Char) : List Char → Nat → Int → Int
  | [], _, best => best
  | x :: rest, i, best => lastIdxAux c rest (i + 1) (if x = c then (i : Int) else best)

/-- JS String.prototype.lastIndexOf for a single character: the greatest index
holding the character, or minus one. -/
def lastIndexOfC (l : List Char) (c : Char) : Int :=
  lastIdxAux c l 0 (-1)

/-- JS String.prototype.repeat. -/
def repeatL (l : List Char) (n : Nat) : List Char :=
  (List.replicate n l).flatten

/-- Truthiness of the trimStr variable (a JS string or null): null and the
empty string are falsy. -/
def jsTruthyStr : Option (List Char) → Bool
  | none => false
  | some [] => false
  | some (_ :: _) => true

/-! ## Measurement oracle and configuration -/

/-- The measurement primitive: for a string assigned to the measurement
container's innerHTML, the width and height the DOM would report.  The engine
is a pure function of this oracle. -/
structure Oracle where
  w : List Char → ℚ
  h : List Char → ℚ

/-- Per-instance, per-style configuration of the engine: the cache limit and
style-key suffix used by the advanced cache, the ellipsis flag, and the
per-style measurement context values (line height and the precomputed widths
of the ellipsis string and of a single dot), plus the truthiness of the
canvas context (which decides whether a space is replaced by the nbsp entity
in the wrap loop). -/
structure Config where
  maxCacheLimit : Nat
  styleSuffix : List Char
  showNoEllipses : Bool
  lineHeight : ℚ
  ellipsesWidth : ℚ
  dotWidth : ℚ
  context : Bool

/-! ## The advanced cache (_calCharDimWithCache) -/

/-- A value stored in the advanced cache: either a measured width-and-height
entry (stored by the source as a comma-separated string, always truthy) or an
asymmetric-difference correction (stored as a raw number, falsy when zero). -/
inductive CacheVal where
  | dims (w h : ℚ)
  | corr (d : ℚ)
deriving DecidableEq, Repr

/-- The advanced cache state: the key-to-value map (a JS object, modelled as
an association list with unique keys) and the insertion-ordered key list used
for eviction. -/
structure AdvState where
  cache : List (List Char × CacheVal)
  keys : List (List Char)
deriving DecidableEq, Repr

/-- The empty advanced cache. -/
def AdvState.empty : AdvState := ⟨[], []⟩

/-- JS object property read: the value stored under the first matching key. -/
def jsGet : List (List Char × CacheVal) → List Char → Option CacheVal
  | [], _ => none
  | (k1, v1) :: rest, k => if k1 = k then some v1 else jsGet rest k

/-- JS object property write: overwrite in place when present, append when
absent (so keys stay unique). -/
def jsSet : List (List Char × CacheVal) → List Char → CacheVal →
    List (List Char × CacheVal)
  | [], k, v => [(k, v)]
  | (k1, v1) :: rest, k, v =>
    if k1 = k then (k, v) :: rest else (k1, v1) :: jsSet rest k v

/-- JS delete of an object property. -/
def jsDel : List (List Char × CacheVal) → List Char →
    List (List Char × CacheVal)
  | [], _ => []
  | (k1, v1) :: rest, k =>
    if k1 = k then jsDel rest k else (k1, v1) :: jsDel rest k

/-- Store a value under a key, push the key on the eviction list, and if the
list now exceeds the limit, shift the oldest key off and delete it from the
map — exactly the push-then-conditional-shift in _calCharDimWithCache. -/
def insertEvict (limit : Nat) (st : AdvState) (k : List Char) (v : CacheVal) : AdvState :=
  let cache := jsSet st.cache k v
  let keys := st.keys ++ [k]
  if keys.length > limit then
    match keys with
    | [] => ⟨cache, []⟩
    | old :: rest => ⟨jsDel cache old, rest⟩
  else ⟨cache, keys⟩

/-- A measured size. -/
structure Size where
  width : ℚ
  height : ℚ
deriving DecidableEq, Repr

/-- The space-to-nbsp replacement applied to the measured text by the
htmlSplCharSpace table (whose only key is the single space). -/
def replSpl (t : List Char) : List Char :=
  if t = [' '] then "&nbsp;".data else t

/-- Shallow embedding of SmartLabelManager.prototype._calCharDimWithCache.

The returned option is none exactly where the JS code leaves the domain of
well-typed behaviour: a truthy non-string cache hit (a nonzero correction
number stored under the same key) makes the source call split on a number and
throw, and a string stored under a correction key makes the source
concatenate a number with a string; both are modelled as errors.  The state
is returned alongside so that mutations made before such an error are kept,
as they are in JS. -/
def calCharDim (cfg : Config) (m : Oracle) (text : List Char)
    (calculateDifference : Bool) (length : Nat) (st : AdvState) :
    Option Size × AdvState :=
  let cacheName := text ++ cfg.styleSuffix
  let cacheInitName := text ++ "init".data ++ cfg.styleSuffix
  let text := replSpl text
  let step2 : Option ℚ × AdvState :=
    if ¬calculateDifference then (some 0, st)
    else
      match jsGet st.cache cacheInitName with
      | some (.corr d) => (some d, st)
      | some (.dims _ _) => (none, st)
      | none =>
        let tw := m.w (repeatL text length)
        let twi := m.w text
        let d := (tw - (length : ℚ) * twi) / ((length : ℚ) + 1)
        (some d, insertEvict cfg.maxCacheLimit st cacheInitName (.corr d))
  match step2 with
  | (none, st) => (none, st)
  | (some asym, st) =>
    match jsGet st.cache cacheName with
    | some (.dims w h) => (some ⟨w, h⟩, st)
    | some (.corr d) =>
      if d ≠ 0 then (none, st)
      else
        let size : Size := ⟨m.w text + asym, m.h text⟩
        (some size, insertEvict cfg.maxCacheLimit st cacheName (.dims size.width size.height))
    | none =>
      let size : Size := ⟨m.w text + asym, m.h text⟩
      (some size, insertEvict cfg.maxCacheLimit st cacheName (.dims size.width size.height))

/-- A call to _calCharDimWithCache: the text, the calculateDifference flag
and the length argument. -/
structure CacheCall where
  text : List Char
  diff : Bool
  len : Nat
deriving DecidableEq, Repr

/-- Run a sequence of _calCharDimWithCache calls, keeping only the cache state. -/
def runCalls (cfg : Config) (m : Oracle) : List CacheCall → AdvState → AdvState
  | [], st => st
  | c :: rest, st => runCalls cfg m rest (calCharDim cfg m c.text c.diff c.len st).2

/-! ## getOriSize (detailed mode) -/

/-- The result of getOriSize with the detailed flag. -/
structure OriDetail where
  width : ℚ
  height : ℚ
  detail : List (List Char × ℚ)
deriving DecidableEq, Repr

/-- Read a width from an association list keyed by strings (the per-letter
detail store and the basic character cache). -/
def jsGetQ : List (List Char × ℚ) → List Char → Option ℚ
  | [], _ => none
  | (k1, v1) :: rest, k => if k1 = k then some v1 else jsGetQ rest k

/-- Write a width into an association list keyed by strings, overwriting in
place when present. -/
def jsSetQ : List (List Char × ℚ) → List Char → ℚ → List (List Char × ℚ)
  | [], k, v => [(k, v)]
  | (k1, v1) :: rest, k, v =>
    if k1 = k then (k, v) :: rest else (k1, v1) :: jsSetQ rest k v

/-- The per-letter fold of getOriSize with the detailed flag: accumulate the
corrected widths, take the running maximum of the heights, and store each
letter's width in the detail object. -/
def oriFold (cfg : Config) (m : Oracle) (L : Nat) :
    List Char → AdvState → ℚ → ℚ → List (List Char × ℚ) →
    (Option OriDetail) × AdvState
  | [], st, cum, hmax, det => (some ⟨jsRound cum, hmax, det⟩, st)
  | c :: rest, st, cum, hmax, det =>
    match calCharDim cfg m [c] true L st with
    | (none, st) => (none, st)
    | (some sz, st) =>
      oriFold cfg m L rest st (cum + sz.width) (max hmax sz.height) (jsSetQ det [c] sz.width)

/-- Shallow embedding of getOriSize with detailedCalculationFlag set: split
the text into letters and fold _calCharDimWithCache over them in
repetition-correction mode, rounding the cumulative width at the end. -/
def getOriSizeDetailed (cfg : Config) (m : Oracle) (text : List Char) (st : AdvState) :
    (Option OriDetail) × AdvState :=
  oriFold cfg m text.length text st 0 0 []

/-! ## The fitting engine: getSmartText, plain-text path -/

/-- Modelled from the spec: lib.js (which holds getNearestBreakIndex) is not
under src.  Per the spec, the engine accumulates character widths left to
right and stops the moment the running width exceeds the budget; the helper
returns the number of leading characters whose accumulated width stays within
the given width. -/
def nearestBreakIndex (m : Oracle) : List Char → ℚ → Nat
  | [], _ => 0
  | c :: rest, rem =>
    let w := m.w [c]
    if w ≤ rem then 1 + nearestBreakIndex m rest (rem - w) else 0

/-- The character cache bound to the current style (this._cache, the
charCache of the measurement context). -/
abbrev CharCache := List (List Char × ℚ)

/-- The per-character width lookup chain of the getSmartText loops: the
character cache first, then the detail object computed by the initial
detailed measurement (whose value is used only when truthy, so a zero width
falls through), then a fresh measurement; a miss is written back to the
character cache. -/
def charWidth (m : Oracle) (cache : CharCache) (detail : List (List Char × ℚ))
    (key : List Char) : ℚ × CharCache :=
  match jsGetQ cache key with
  | some w => (w, cache)
  | none =>
    let w :=
      match jsGetQ detail key with
      | some d => if d ≠ 0 then d else m.w key
      | none => m.w key
    (w, jsSetQ cache key w)

/-- The result record of getSmartText.  width and height are null until a
return path fills them; every modelled return path does, so they are plain
rationals here.  tooltext is present only on the truncation paths. -/
structure SmartLabel where
  text : List Char
  maxWidth : ℚ
  maxHeight : ℚ
  width : ℚ
  height : ℚ
  oriTextWidth : ℚ
  oriTextHeight : ℚ
  oriText : List Char
  isTruncated : Bool
  tooltext : Option (List Char)
deriving DecidableEq, Repr

/-- The fields of the result record that are fixed before the loops run. -/
structure BaseInfo where
  oriText : List Char
  maxWidth : ℚ
  maxHeight : ℚ
  oriW : ℚ
  oriH : ℚ
deriving DecidableEq, Repr

/-- The no-wrap loop of getSmartText (the noWrap branch of the plain-text
path).  consumed is the tempArr built so far (in order), rest the characters
still to walk; strWidth is the running width and trimStr the remembered
prefix from the first time the ellipsis budget was exceeded. -/
def noWrapLoop (m : Oracle) (cfg : Config) (b : BaseInfo) (maxWidth budget : ℚ)
    (ell : List Char) :
    List Char → List Char → ℚ → Option (List Char) → CharCache →
    List (List Char × ℚ) → SmartLabel
  | [], consumed, strWidth, _, _, _ =>
      { text := consumed, maxWidth := b.maxWidth, maxHeight := b.maxHeight,
        width := strWidth, height := cfg.lineHeight,
        oriTextWidth := b.oriW, oriTextHeight := b.oriH,
        oriText := b.oriText, isTruncated := false, tooltext := none }
  | c :: rest, consumed, strWidth0, trimStr0, cache0, detail =>
      let consumed := consumed ++ [c]
      let (mW, cache) := charWidth m cache0 detail [c]
      let strWidth := strWidth0 + mW
      if strWidth > budget then
        let trimStr :=
          if jsTruthyStr trimStr0 then trimStr0
          else some (jsSliceL consumed 0 (-1))
        if strWidth > maxWidth then
          let outText := fastTrim ((trimStr.getD []) ) ++ ell
          { text := outText, maxWidth := b.maxWidth, maxHeight := b.maxHeight,
            width := m.w outText, height := cfg.lineHeight,
            oriTextWidth := b.oriW, oriTextHeight := b.oriH,
            oriText := b.oriText, isTruncated := false, tooltext := some b.oriText }
        else noWrapLoop m cfg b maxWidth budget ell rest consumed strWidth trimStr cache detail
      else noWrapLoop m cfg b maxWidth budget ell rest consumed strWidth trimStr0 cache detail

/-- The line-break marker inserted by the wrap loop. -/
def brTag : List Char := "<br/>".data

/-- The lookup key used by the wrap loop for a character: a space becomes
the nbsp entity when the canvas context is falsy. -/
def wrapKey (cfg : Config) (c : Char) : List Char :=
  if c = ' ' && !cfg.context then "&nbsp;".data else [c]

/-- The wrap branches of one wrap-loop iteration: given the pre-splice
tempArr (with the current character already written at index i), the
last-space and last-dash positions and the last index broken, produce the
re-measured width the source assigns to strWidth, the spliced tempArr, the
new last index broken and the index of the first character of the new line.
Mirrors the three branches at the heart of the wrap path, including the use
of lastSpace (not lastDash) in the slice measured by the dash branch. -/
def wrapBreak (m : Oracle) (tempArr : List (List Char)) (c : Char)
    (lastSpace lastDash lastIndexBroken : Int) (i : Nat) :
    ℚ × List (List Char) × Int × Nat :=
  if lastSpace > lastIndexBroken then
    let sw := m.w (jsSliceL tempArr (lastIndexBroken + 1) lastSpace).flatten
    (sw, tempArr.set lastSpace.toNat brTag, lastSpace, (lastSpace + 1).toNat)
  else if lastDash > lastIndexBroken then
    let sw := m.w (jsSliceL tempArr (lastIndexBroken + 1) lastSpace).flatten
    let repl := if lastDash = (tempArr.length : Int) - 1 then brTag ++ ['-'] else '-' :: brTag
    (sw, tempArr.set lastDash.toNat repl, lastDash, (lastDash + 1).toNat)
  else
    let tempArr := tempArr.set (tempArr.length - 1) (brTag ++ [c])
    let lastLineBreak : Int := (tempArr.length : Int) - 2
    let sw := m.w (jsSliceL tempArr (lastIndexBroken + 1) (lastLineBreak + 1)).flatten
    (sw, tempArr, lastLineBreak, i)

/-- The wrap loop of getSmartText (the else of the noWrap branch of the
plain-text path).  The loop index can jump forward when tempArr is extended
after a break, so the recursion is driven by explicit fuel; the caller passes
enough fuel for the loop to run out of characters first, and lemmas about the
loop are conditioned on a some result. -/
def wrapLoop (m : Oracle) (cfg : Config) (b : BaseInfo) (maxWidth maxHeight budget : ℚ)
    (ell : List Char) (textC : List Char) (detail : List (List Char × ℚ)) :
    Nat → Nat → List (List Char) → ℚ → ℚ → ℚ → Option (List Char) → Int → CharCache →
    Option SmartLabel
  | 0, _, _, _, _, _, _, _, _ => none
  | fuel + 1, i, tempArr0, strWidth0, strHeight0, maxStrWidth0, trimStr0, lastIndexBroken, cache0 =>
    if h : i < textC.length then
      let c := textC.get ⟨i, h⟩
      let tempArr := jsSetElem tempArr0 i [c] []
      let (mW, cache) := charWidth m cache0 detail (wrapKey cfg c)
      let strWidth := strWidth0 + mW
      if strWidth > budget then
        let trimStr :=
          if jsTruthyStr trimStr0 then trimStr0
          else some (jsSliceL tempArr 0 (-1)).flatten
        if strWidth > maxWidth then
          let pre := textC.take tempArr.length
          let lastSpace := lastIndexOfC pre ' '
          let lastDash := lastIndexOfC pre '-'
          let (strWidth2, tempArr2, lIB2, newCharIndex) :=
            wrapBreak m tempArr c lastSpace lastDash lastIndexBroken i
          let strHeight := strHeight0 + cfg.lineHeight
          if strHeight > maxHeight then
            some { text := fastTrim (trimStr.getD []) ++ ell,
                   maxWidth := b.maxWidth, maxHeight := b.maxHeight,
                   width := maxWidth, height := strHeight - cfg.lineHeight,
                   oriTextWidth := b.oriW, oriTextHeight := b.oriH,
                   oriText := b.oriText, isTruncated := false, tooltext := some b.oriText }
          else
            let maxStrWidth := max maxStrWidth0 strWidth2
            let nearestChar := nearestBreakIndex m (textC.drop newCharIndex) budget
            let strWidth3 :=
              m.w ((textC.drop newCharIndex).take (if nearestChar = 0 then 1 else nearestChar))
            let (tempArr3, i2) :=
              if tempArr2.length < newCharIndex + nearestChar then
                (tempArr2 ++
                  ((textC.drop tempArr2.length).take
                    (newCharIndex + nearestChar - tempArr2.length)).map (fun ch => [ch]),
                 newCharIndex + nearestChar - 1)
              else (tempArr2, i)
            wrapLoop m cfg b maxWidth maxHeight budget ell textC detail
              fuel (i2 + 1) tempArr3 strWidth3 strHeight maxStrWidth none lIB2 cache
        else
          wrapLoop m cfg b maxWidth maxHeight budget ell textC detail
            fuel (i + 1) tempArr strWidth strHeight0 maxStrWidth0 trimStr lastIndexBroken cache
      else
        wrapLoop m cfg b maxWidth maxHeight budget ell textC detail
          fuel (i + 1) tempArr strWidth strHeight0 maxStrWidth0 trimStr0 lastIndexBroken cache
    else
      some { text := tempArr0.flatten, maxWidth := b.maxWidth, maxHeight := b.maxHeight,
             width := max maxStrWidth0 strWidth0, height := strHeight0,
             oriTextWidth := b.oriW, oriTextHeight := b.oriH,
             oriText := b.oriText, isTruncated := false, tooltext := none }

/-- The first character of the normalized text, as the string the source
reads it as: indexing an empty array yields undefined, which stringifies when
used as a property key or innerHTML. -/
def firstChar (text2 : List Char) : List Char :=
  match text2 with
  | [] => "undefined".data
  | c :: _ => [c]

/-- The seeding of minWidth before the loops: look the first character up in
the basic character cache, measuring and caching it on a miss. -/
def seedMinWidth (m : Oracle) (cache0 : CharCache) (k : List Char) : ℚ × CharCache :=
  match jsGetQ cache0 k with
  | some w => (w, cache0)
  | none => (m.w k, jsSetQ cache0 k (m.w k))

/-- The empty-result record returned when nothing fits. -/
def zeroRecord (text0 : List Char) (maxWidth maxHeight : ℚ) : SmartLabel :=
  { text := [], maxWidth := maxWidth, maxHeight := maxHeight,
    width := 0, height := 0, oriTextWidth := 0, oriTextHeight := 0,
    oriText := text0, isTruncated := false, tooltext := none }

/-- The effective maximum height: getSmartText inflates maxHeight by the
factor 1.2 when it equals the line height, to compensate single-line
measurement overshoot.  The result record keeps the original maxHeight. -/
def effMaxHeight (cfg : Config) (maxHeight : ℚ) : ℚ :=
  if maxHeight = cfg.lineHeight then maxHeight * (6 / 5) else maxHeight

/-- The degraded ellipsis budget: when the first character does not fit the
full ellipsis budget, try two dots, then one dot, then no ellipsis at all. -/
def degradeEllipsis (cfg : Config) (maxWidth minWidth : ℚ) : ℚ × List Char :=
  let b2 := maxWidth - 2 * cfg.dotWidth
  if b2 > minWidth then (b2, "..".data)
  else
    let b1 := maxWidth - cfg.dotWidth
    if b1 > minWidth then (b1, ".".data)
    else (0, [])

/-- Shallow embedding of the plain-text (tag-free) path of
SmartLabelManager.prototype.getSmartText, for an initialized instance whose
container exists in a browser-capable document.  The advanced-cache state and
the per-style character cache are passed in; the result is none only where
the JS path would throw (propagated from the detailed measurement). -/
def getSmartTextPlain (cfg : Config) (m : Oracle) (text : List Char)
    (maxWidth maxHeight : ℚ) (noWrap : Bool) (st : AdvState) (cache0 : CharCache) :
    Option SmartLabel :=
  let maxHeight2 := effMaxHeight cfg maxHeight
  let tmpText := ltgtReplace text
  match getOriSizeDetailed cfg m tmpText st with
  | (none, _) => none
  | (some g, _) =>
    let oriW := g.width
    let oriH := g.height
    if oriH ≤ maxHeight2 ∧ oriW ≤ maxWidth then
      some { text := text, maxWidth := maxWidth, maxHeight := maxHeight,
             width := oriW, height := oriH, oriTextWidth := oriW, oriTextHeight := oriH,
             oriText := text, isTruncated := false, tooltext := none }
    else if cfg.lineHeight > maxHeight2 then
      some (zeroRecord text maxWidth maxHeight)
    else
      let text2 := collapseWs (fastTrim text)
      let budget0 := if cfg.showNoEllipses then maxWidth else maxWidth - cfg.ellipsesWidth
      let ell0 : List Char := if cfg.showNoEllipses then [] else "...".data
      let tempChar := firstChar text2
      let (minWidth, cache1) := seedMinWidth m cache0 tempChar
      let b : BaseInfo :=
        { oriText := text, maxWidth := maxWidth, maxHeight := maxHeight,
          oriW := oriW, oriH := oriH }
      if budget0 > minWidth then
        let n := nearestBreakIndex m text2 budget0
        let strWidth0 := m.w (text2.take n)
        if noWrap then
          some (noWrapLoop m cfg b maxWidth budget0 ell0
            (text2.drop n) (text2.take n) strWidth0 none cache1 g.detail)
        else
          wrapLoop m cfg b maxWidth maxHeight2 budget0 ell0 text2 g.detail
            (text2.length + 1) n ((text2.take n).map (fun ch => [ch])) strWidth0
            cfg.lineHeight 0 none (-1) cache1
      else if minWidth > maxWidth then
        some (zeroRecord text maxWidth maxHeight)
      else
        let (budget1, ell1) :=
          if ell0 ≠ [] then degradeEllipsis cfg maxWidth minWidth else (budget0, ell0)
        let strWidth0 := m.w []
        if noWrap then
          some (noWrapLoop m cfg b maxWidth budget1 ell1
            text2 [] strWidth0 none cache1 g.detail)
        else
          wrapLoop m cfg b maxWidth maxHeight2 budget1 ell1 text2 g.detail
            (text2.length + 1) 0 [] strWidth0 cfg.lineHeight 0 none (-1) cache1

/-! ## Instance lifecycle (dispose and the guards) -/

/-- The lifecycle-relevant view of a SmartLabelManager instance: the
initialization flag and, for each reference the instance holds, whether the
property is still present (dispose removes them with the delete operator). -/
structure Instance where
  initFlag : Bool
  showNoEllipsesP : Option Bool
  containerP : Bool
  contextP : Bool
  cacheP : Bool
  containerManagerP : Bool
  containerObjP : Bool
  idP : Bool
  styleP : Bool
  parentContainerP : Bool
deriving DecidableEq, Repr

/-- A freshly constructed, initialized instance: the constructor sets every
modelled property and leaves the init flag true. -/
def freshInstance : Instance :=
  ⟨true, some true, true, true, true, true, true, true, true, true⟩

/-- Shallow embedding of SmartLabelManager.prototype.dispose: behind the
init guard it deletes the container, context, cache, container manager,
container object, id, style, parent container and ellipsis-flag properties.
It does not touch the init flag. -/
def dispose (s : Instance) : Instance :=
  if ¬s.initFlag then s
  else
    { s with containerP := false, contextP := false, cacheP := false,
             containerManagerP := false, containerObjP := false, idP := false,
             styleP := false, parentContainerP := false, showNoEllipsesP := none }

/-- Shallow embedding of useEllipsesOnOverflow: behind the init guard it
stores the negated flag (recreating the property if it had been deleted). -/
def useEllipsesOnOverflow (s : Instance) (useEllipses : Bool) : Instance :=
  if ¬s.initFlag then s else { s with showNoEllipsesP := some (!useEllipses) }

/-- How a public call on the instance ends: the falsy sentinel from the
uninitialized guard, a thrown TypeError from reading a property of a deleted
(undefined) reference, or normal progress into the body. -/
inductive CallOutcome where
  | falsySentinel
  | jsError
  | proceeds
deriving DecidableEq, Repr

/-- The entry behaviour of getSmartText: the init guard returns false, and
otherwise the prologue immediately reads ellipsesWidth from the container
object, which throws when that reference was deleted. -/
def getSmartTextEntry (s : Instance) : CallOutcome :=
  if ¬s.initFlag then .falsySentinel
  else if ¬s.containerObjP then .jsError
  else .proceeds

/-- The entry behaviour of setStyle when called with a fresh style object:
the init guard returns the instance, and otherwise the body calls get on the
container manager, which throws when that reference was deleted. -/
def setStyleEntry (s : Instance) : CallOutcome :=
  if ¬s.initFlag then .falsySentinel
  else if ¬s.containerManagerP then .jsError
  else .proceeds

/-! ## The static textToLines helper -/

/-- A JS value as far as textToLines observes it: undefined or null, a
string, or a non-string value with its truthiness and its toString image. -/
inductive JSVal where
  | undef
  | str (s : List Char)
  | other (falsy : Bool) (toStr : List Char)
deriving DecidableEq, Repr

/-- JS truthiness of such a value. -/
def jsFalsy : JSVal → Bool
  | .undef => true
  | .str s => s.isEmpty
  | .other f _ => f

/-- The argument object of textToLines, reduced to the one field it reads. -/
structure TLObj where
  text : JSVal
deriving DecidableEq, Repr

/-- The observable result of textToLines: the text field after normalization
and the lines field it sets.  The source mutates the argument object in place
and returns the same reference; the functional embedding returns the updated
object. -/
structure TLResult where
  text : List Char
  lines : List (List Char)
deriving DecidableEq, Repr

/-- Match the break-tag alternative of the split pattern at the head of the
list: a less-than sign, the letters b and r in either case, optional
whitespace, an optional slash and a greater-than sign; returns the remainder
after the match. -/
def brMatch : List Char → Option (List Char)
  | '<' :: b :: r :: rest =>
    if (b = 'b' ∨ b = 'B') ∧ (r = 'r' ∨ r = 'R') then
      match rest.dropWhile isWs with
      | '/' :: '>' :: tail => some tail
      | '>' :: tail => some tail
      | _ => none
    else none
  | _ => none

/-- The scanner for the split on newline or break tags, with fuel bounded by
the remaining length (each step consumes at least one character). -/
def splitLinesAux : Nat → List Char → List Char → List (List Char)
  | 0, l, acc => [acc.reverse ++ l]
  | _ + 1, [], acc => [acc.reverse]
  | fuel + 1, c :: rest, acc =>
    if c = '\n' then acc.reverse :: splitLinesAux fuel rest []
    else
      match brMatch (c :: rest) with
      | some tail => acc.reverse :: splitLinesAux fuel tail []
      | none => splitLinesAux fuel rest (c :: acc)

/-- JS String.prototype.split on the case-insensitive newline-or-break-tag
pattern used by textToLines. -/
def splitLines (l : List Char) : List (List Char) :=
  splitLinesAux l.length l []

/-- Shallow embedding of the static SmartLabelManager.textToLines: default
the argument to an empty object, normalize a falsy text field to the empty
string and a non-string one through toString, then set lines to the split of
the text. -/
def textToLines : Option TLObj → TLResult
  | none => ⟨[], splitLines []⟩
  | some o =>
    let t : List Char :=
      if jsFalsy o.text then []
      else
        match o.text with
        | .str s => s
        | .other _ ts => ts
        | .undef => []
    ⟨t, splitLines t⟩

/-! ## Concrete oracles and configurations used by the closed theorems -/

/-- Sum of per-character widths: the width function of an additive oracle. -/
def sumW (w0 : Char → ℚ) (l : List Char) : ℚ :=
  (l.map w0).sum

/-- An oracle that is exactly additive over characters with a constant
element height: the idealization of a monospace-like measurement surface. -/
def addOracle (w0 : Char → ℚ) (hq : ℚ) : Oracle :=
  ⟨fun s => sumW w0 s, fun _ => hq⟩

/-- Uniform character width three. -/
def w3 : Char → ℚ := fun _ => 3

/-- Character width three except a wide capital W of width fifty. -/
def w3W : Char → ℚ := fun c => if c = 'W' then 50 else 3

/-- A configuration with ellipses enabled and ellipsis width six. -/
def cfgEll6 : Config := ⟨500, [], false, 10, 6, 2, true⟩

/-- A configuration with ellipses enabled and ellipsis width four. -/
def cfgEll4 : Config := ⟨500, [], false, 10, 4, 2, true⟩

/-- A configuration with ellipses disabled. -/
def cfgNoEll : Config := ⟨500, [], true, 10, 0, 2, true⟩

/-- A configuration with ellipses enabled and ellipsis width twelve. -/
def cfgEll12 : Config := ⟨500, [], false, 10, 12, 2, true⟩

/-- An oracle with constant width five and height seven, used by the cache
counterexample; any oracle works there because a one-character string equals
its own one-fold repetition, making the stored correction zero. -/
def mConst : Oracle := ⟨fun _ => 5, fun _ => 7⟩

/-- A small cache configuration with limit three and an empty style suffix. -/
def cfgLim3 : Config := ⟨3, [], false, 10, 6, 2, true⟩

/-- The call sequence of the cache desynchronization counterexample: a
detailed one-letter measurement of the text a (storing a zero correction
under the key ainit), then a plain measurement of the text ainit (whose
zero-valued hit is falsy, so the entry is overwritten and the key pushed a
second time), then a plain measurement of b to push the list over the limit. -/
def desyncCalls : List CacheCall :=
  [⟨['a'], true, 1⟩, ⟨"ainit".data, false, 0⟩, ⟨['b'], false, 0⟩]

/-! ## Spec-side derived definitions used by the theorem statements -/

/-- The successive per-character widths the no-wrap loop will compute,
threading the character cache exactly as the loop does. -/
def nwWidths (m : Oracle) (cache : CharCache) (detail : List (List Char × ℚ)) :
    List Char → List ℚ
  | [] => []
  | c :: rest =>
    (charWidth m cache detail [c]).1 ::
      nwWidths m (charWidth m cache detail [c]).2 detail rest

/-- The per-occurrence asymmetric correction the cache derives for a
character text under a repetition length, as the claim states it. -/
def corrOf (m : Oracle) (t : List Char) (L : Nat) : ℚ :=
  (m.w (repeatL (replSpl t) L) - (L : ℚ) * m.w (replSpl t)) / ((L : ℚ) + 1)

/-- The corrected width of a single measured text: the measured width plus
the repetition correction. -/
def perCharW (m : Oracle) (t : List Char) (L : Nat) : ℚ :=
  m.w (replSpl t) + corrOf m t L

/-- The advanced-cache key of a measured text under a style suffix. -/
def nameKey (sfx t : List Char) : List Char := t ++ sfx

/-- The advanced-cache key of a correction entry under a style suffix. -/
def initKey (sfx t : List Char) : List Char := t ++ "init".data ++ sfx

/-- The intact-cache invariant of the advanced cache relative to a set of
calls: the eviction list and the map keys are duplicate-free, a key is in the
map exactly when it is on the list, every correction entry sits under the
correction key of one of the calls, and the list respects the bound. -/
def cacheInv (cfg : Config) (calls : List CacheCall) (st : AdvState) : Prop :=
  st.keys.Nodup
  ∧ (st.cache.map Prod.fst).Nodup
  ∧ (∀ k, (jsGet st.cache k).isSome ↔ k ∈ st.keys)
  ∧ (∀ k d, jsGet st.cache k = some (.corr d) →
      ∃ c ∈ calls, k = initKey cfg.styleSuffix c.text)
  ∧ st.keys.length ≤ cfg.maxCacheLimit

/-- The unconditional bound invariant of the advanced cache: its map keys are
duplicate-free, every cached key appears on the eviction list, and the list
respects the limit.  Unlike cacheInv it puts no freshness condition on
inserts, so it survives the colliding calls that push a key onto the list a
second time and desynchronize list and map. -/
def boundInv (limit : Nat) (st : AdvState) : Prop :=
  (st.cache.map Prod.fst).Nodup
  ∧ (∀ k, (jsGet st.cache k).isSome → k ∈ st.keys)
  ∧ st.keys.length ≤ limit

/-- An oracle that is additive over the characters of the measured string,
with per-character widths w0: the idealization under which the bounds of the
fit-or-shrink analysis are stated. -/
def IsAdditive (m : Oracle) (w0 : Char → ℚ) : Prop :=
  ∀ s, m.w s = sumW w0 s

/-- The shape of the advanced cache during detailed single-letter
measurement under an additive oracle: every entry is either a zero
correction under a letter's correction key or the letter's measured
dimensions under its plain key. -/
def measInv (cfg : Config) (m : Oracle) (w0 : Char → ℚ) (st : AdvState) : Prop :=
  ∀ k v, (k, v) ∈ st.cache →
    (∃ c, k = initKey cfg.styleSuffix [c] ∧ v = CacheVal.corr 0) ∨
    (∃ c, k = nameKey cfg.styleSuffix [c] ∧
      v = CacheVal.dims (sumW w0 (replSpl [c])) (m.h (replSpl [c])))

/-- The character cache holds only single-character keys whose stored width
is at least the character's additive width. -/
def cacheConform (w0 : Char → ℚ) (cache : CharCache) : Prop :=
  ∀ k v, (k, v) ∈ cache → ∃ c, k = [c] ∧ w0 c ≤ v

/-- The detail object holds only single-character keys mapped to the
additive width of the measured (nbsp-replaced) letter. -/
def detailConform (w0 : Char → ℚ) (det : List (List Char × ℚ)) : Prop :=
  ∀ k v, (k, v) ∈ det → ∃ c, k = [c] ∧ v = sumW w0 (replSpl [c])

/-- A configuration whose dot width and ellipsis width agree with the
uniform width-three oracle: dot width three, ellipsis width nine. -/
def cfgAdd3 : Config := ⟨500, [], false, 10, 9, 3, true⟩

/-- The record the plain-text path returns for "abcdefgh" at maxWidth 20 and
maxHeight 12 in no-wrap mode under the uniform width-three additive oracle. -/
def c8rec : SmartLabel :=
  { text := ['a', 'b', 'c', '.', '.', '.'], maxWidth := 20, maxHeight := 12,
    width := 18, height := 10, oriTextWidth := 24, oriTextHeight := 7,
    oriText := "abcdefgh".data, isTruncated := false,
    tooltext := some "abcdefgh".data }

/-! # Theorems -/

/-- C10: textToLines normalizes its argument the way the source does — a
missing object or a falsy text field yields the empty string whose split is
the one-element list holding the empty string, a non-string text is first
converted with toString, and in every case the lines field is the
case-insensitive split of the normalized text on newlines or break tags (the
in-place mutation of the source is rendered as returning the updated
object). -/
theorem C10_textToLines_spec :
    (∀ inp, (textToLines inp).lines = splitLines (textToLines inp).text)
    ∧ textToLines none = ⟨[], [[]]⟩
    ∧ (∀ s, textToLines (some ⟨JSVal.str s⟩) =
        if s.isEmpty then ⟨[], [[]]⟩ else ⟨s, splitLines s⟩)
    ∧ (∀ f ts, textToLines (some ⟨JSVal.other f ts⟩) =
        if f then ⟨[], [[]]⟩ else ⟨ts, splitLines ts⟩)
    ∧ splitLines "a\nb<br>c<BR />d-e".data = [['a'], ['b'], ['c'], ['d', '-', 'e']] := by
  refine ⟨?_, by with_unfolding_all decide, ?_, ?_, by with_unfolding_all decide⟩
  · intro inp
    match inp with
    | none => rfl
    | some o => rfl
  · intro s
    match s with
    | [] => rfl
    | c :: rest => simp [textToLines, jsFalsy, List.isEmpty]
  · intro f ts
    match f with
    | true => rfl
    | false =>
      by_cases hts : ts = [] <;> simp [textToLines, jsFalsy, hts]

/-- C2 counterexample: dispose on an initialized instance leaves the init
flag true (the claim says it becomes false), a subsequent getSmartText hits a
TypeError reading the deleted container object instead of taking the
uninitialized-guard branch, and a subsequent useEllipsesOnOverflow still
performs its work instead of being a no-op. -/
theorem C2_dispose_counterexample :
    (dispose freshInstance).initFlag = true
    ∧ getSmartTextEntry (dispose freshInstance) = CallOutcome.jsError
    ∧ useEllipsesOnOverflow (dispose freshInstance) true ≠ dispose freshInstance := by
  decide

/-- C2 amended: dispose deletes the container, context, cache, manager and
related references but leaves the init flag true, so subsequent operations do
not take the uninitialized-guard branch: getSmartText and setStyle fail with
a TypeError on the deleted references rather than returning the falsy
sentinel, and useEllipsesOnOverflow still records the flag. -/
theorem C2_dispose_amended (s : Instance) (b : Bool) (h : s.initFlag = true) :
    (dispose s).initFlag = true
    ∧ (dispose s).containerObjP = false
    ∧ (dispose s).containerManagerP = false
    ∧ (dispose s).containerP = false
    ∧ (dispose s).cacheP = false
    ∧ (dispose s).showNoEllipsesP = none
    ∧ getSmartTextEntry (dispose s) = CallOutcome.jsError
    ∧ setStyleEntry (dispose s) = CallOutcome.jsError
    ∧ useEllipsesOnOverflow (dispose s) b = { dispose s with showNoEllipsesP := some (!b) } := by
  simp [dispose, h, getSmartTextEntry, setStyleEntry, useEllipsesOnOverflow]

/-- Witness for the amended C2 statement at a concrete instance. -/
theorem C2_dispose_amended_witness :
    (dispose freshInstance).initFlag = true
    ∧ (dispose freshInstance).containerObjP = false
    ∧ (dispose freshInstance).containerManagerP = false
    ∧ (dispose freshInstance).containerP = false
    ∧ (dispose freshInstance).cacheP = false
    ∧ (dispose freshInstance).showNoEllipsesP = none
    ∧ getSmartTextEntry (dispose freshInstance) = CallOutcome.jsError
    ∧ setStyleEntry (dispose freshInstance) = CallOutcome.jsError
    ∧ useEllipsesOnOverflow (dispose freshInstance) true
      = { dispose freshInstance with showNoEllipsesP := some (!true) } :=
  C2_dispose_amended freshInstance true rfl

/-- C1: at a concrete input the plain-text no-wrap path finalizes with a
trimmed prefix plus the ellipsis and a tooltip — the display text differs
from the original — yet the returned isTruncated flag is false (the plain
paths never set it; only the markup path does), contradicting both the claim
and the result documentation in the source. -/
theorem C1_plain_truncation_flag_stays_false :
    getSmartTextPlain cfgEll6 (addOracle w3 10) "abcdefgh".data 20 12 true
      AdvState.empty []
    = some { text := "abcd...".data, maxWidth := 20, maxHeight := 12,
             width := 21, height := 10, oriTextWidth := 24, oriTextHeight := 10,
             oriText := "abcdefgh".data, isTruncated := false,
             tooltext := some "abcdefgh".data }
    ∧ "abcd...".data ≠ "abcdefgh".data := by
  constructor
  · with_unfolding_all rfl
  · with_unfolding_all decide

/-- C5: at a concrete wrap-mode input with no space, the dash branch fires
and the running width is reset to the width of the slice bounded by
lastSpace — here the whole consumed span minus its last character, width
twelve — instead of the re-measured segment from the last break point to the
dash (width three, by the exclusive-end convention the space branch uses).
The wrong value is observable in the final result: the returned width is
twelve where the segment-to-dash measurement would give nine. -/
theorem C5_dash_break_resets_wrong_width :
    (wrapBreak (addOracle w3 10) [['a'], ['-'], ['b'], ['c'], ['d']] 'd' (-1) 1 (-1) 4).1 = 12
    ∧ (addOracle w3 10).w (jsSliceL [['a'], ['-'], ['b'], ['c'], ['d']] 0 1).flatten = 3
    ∧ (12 : ℚ) ≠ 3
    ∧ (getSmartTextPlain cfgNoEll (addOracle w3 10) "a-bcd".data 12 100 false
        AdvState.empty []).map SmartLabel.width = some 12 := by
  refine ⟨by with_unfolding_all rfl, by with_unfolding_all rfl,
    by with_unfolding_all decide, by with_unfolding_all rfl⟩

/-- C3 counterexample: running the desynchronization call sequence from an
empty cache leaves the key ainit on the insertion-order list while the cache
map no longer holds it — an eviction removed the key from the map but a
duplicate of it (pushed when a falsy zero correction was overwritten by a
measurement) survives on the list, so the two key sets differ. -/
theorem C3_eviction_desync_counterexample :
    "ainit".data ∈ (runCalls cfgLim3 mConst desyncCalls AdvState.empty).keys
    ∧ "ainit".data ∉
        ((runCalls cfgLim3 mConst desyncCalls AdvState.empty).cache.map Prod.fst) := by
  exact ⟨by with_unfolding_all decide, by with_unfolding_all decide⟩

/-- C8 counterexample: two concrete runs violate the fit-or-shrink bounds as
claimed.  First, with maxHeight equal to the line height the engine inflates
the height budget by the factor 1.2, and the fast path returns a measured
height of eleven against a maxHeight of ten.  Second, in wrap mode a single
character wider than maxWidth forces a line whose re-measured width (fifty)
becomes the returned width against a maxWidth of twelve — not the no-wrap
soft-overflow allowance the claim excepts. -/
theorem C8_bounds_counterexample :
    ((getSmartTextPlain cfgNoEll (addOracle w3 11) "ab".data 100 10 true
        AdvState.empty []).map SmartLabel.height = some 11
      ∧ (getSmartTextPlain cfgNoEll (addOracle w3 11) "ab".data 100 10 true
          AdvState.empty []).map SmartLabel.text = some "ab".data
      ∧ ¬ ((11 : ℚ) ≤ 10))
    ∧ ((getSmartTextPlain cfgNoEll (addOracle w3W 10) "aa Wa".data 12 100 false
        AdvState.empty []).map SmartLabel.width = some 50
      ∧ ¬ ((50 : ℚ) ≤ 12)) := by
  refine ⟨⟨by with_unfolding_all rfl, by with_unfolding_all rfl,
    by with_unfolding_all decide⟩, by with_unfolding_all rfl, by with_unfolding_all decide⟩

/-- C6: in wrap mode, when the running width has burst both the budget and
the absolute max width at the current character and the break about to be
inserted pushes the cumulative height over maxHeight, the call finalizes
right there whatever break branch was taken: the returned text is the trimmed
remembered prefix plus the ellipsis string, the tooltip is the original text,
the width is exactly maxWidth and the height is the cumulative height before
the increment (that is, the incremented height minus one line height). -/
theorem C6_height_exhaustion_finalizes (m : Oracle) (cfg : Config) (b : BaseInfo)
    (maxWidth maxHeight budget : ℚ) (ell textC : List Char)
    (detail : List (List Char × ℚ)) (fuel i : Nat) (tempArr0 : List (List Char))
    (strWidth0 strHeight0 maxStrWidth0 : ℚ) (trimStr0 : Option (List Char))
    (lIB : Int) (cache0 : CharCache)
    (hi : i < textC.length) (mW : ℚ) (cache2 : CharCache)
    (hcw : charWidth m cache0 detail (wrapKey cfg (textC.get ⟨i, hi⟩)) = (mW, cache2))
    (hb : strWidth0 + mW > budget)
    (hm : strWidth0 + mW > maxWidth)
    (hh : strHeight0 + cfg.lineHeight > maxHeight) :
    wrapLoop m cfg b maxWidth maxHeight budget ell textC detail
      (fuel + 1) i tempArr0 strWidth0 strHeight0 maxStrWidth0 trimStr0 lIB cache0
    = some { text := fastTrim ((if jsTruthyStr trimStr0 then trimStr0
                 else some (jsSliceL (jsSetElem tempArr0 i [textC.get ⟨i, hi⟩] []) 0 (-1)).flatten).getD [])
                 ++ ell,
             maxWidth := b.maxWidth, maxHeight := b.maxHeight,
             width := maxWidth, height := strHeight0,
             oriTextWidth := b.oriW, oriTextHeight := b.oriH,
             oriText := b.oriText, isTruncated := false, tooltext := some b.oriText } := by
  rw [wrapLoop]
  rw [dif_pos hi]
  dsimp only
  rw [hcw]
  dsimp only
  rw [if_pos hb, if_pos hm, if_pos hh]
  rw [add_sub_cancel_right]

/-- Witness for C6 at the concrete two-line scenario: breaking at the space
of the text ab-space-cd busts the height budget, so the call returns the
trimmed prefix ab plus the ellipsis, tooltip equal to the original text,
width equal to maxWidth and height one line. -/
theorem C6_height_exhaustion_finalizes_witness :
    wrapLoop (addOracle w3 10) cfgEll4 ⟨"ab cd".data, 12, 12, 30, 10⟩ 12 12 8 "...".data
      "ab cd".data [] 1 4 [['a'], ['b'], [' '], ['c']] 12 10 0 (some "ab".data) (-1) []
    = some { text := "ab...".data, maxWidth := 12, maxHeight := 12, width := 12,
             height := 10, oriTextWidth := 30, oriTextHeight := 10,
             oriText := "ab cd".data, isTruncated := false,
             tooltext := some "ab cd".data } := by
  have h := C6_height_exhaustion_finalizes (addOracle w3 10) cfgEll4
    ⟨"ab cd".data, 12, 12, 30, 10⟩ 12 12 8 "...".data "ab cd".data [] 0 4
    [['a'], ['b'], [' '], ['c']] 12 10 0 (some "ab".data) (-1) []
    (by with_unfolding_all decide) 3 [(['d'], 3)]
    (by with_unfolding_all rfl) (by norm_num) (by norm_num)
    (by norm_num [cfgEll4])
  exact h.trans (by with_unfolding_all rfl)

/-- C7: in no-wrap mode, as long as the running accumulated width never
exceeds the absolute max width (even if it exceeds the ellipsis-reduced
budget at some character, which only records the trim prefix), the loop
walks the whole string and returns the full accumulated text with no
ellipsis appended, width equal to the accumulated width and height equal to
one line height, with no tooltip. -/
theorem C7_noWrap_soft_overflow (m : Oracle) (cfg : Config) (b : BaseInfo)
    (maxWidth budget : ℚ) (ell : List Char) (detail : List (List Char × ℚ)) :
    ∀ (rest consumed : List Char) (strWidth0 : ℚ) (trimStr0 : Option (List Char))
      (cache0 : CharCache),
      (∀ k, strWidth0 + ((nwWidths m cache0 detail rest).take k).sum ≤ maxWidth) →
      noWrapLoop m cfg b maxWidth budget ell rest consumed strWidth0 trimStr0 cache0 detail
      = { text := consumed ++ rest, maxWidth := b.maxWidth, maxHeight := b.maxHeight,
          width := strWidth0 + (nwWidths m cache0 detail rest).sum,
          height := cfg.lineHeight, oriTextWidth := b.oriW, oriTextHeight := b.oriH,
          oriText := b.oriText, isTruncated := false, tooltext := none } := by
  intro rest
  induction rest with
  | nil =>
    intro consumed strWidth0 trimStr0 cache0 _
    rw [noWrapLoop]
    simp [nwWidths]
  | cons c rest ih =>
    intro consumed strWidth0 trimStr0 cache0 hbound
    have h1 : strWidth0 + (charWidth m cache0 detail [c]).1 ≤ maxWidth := by
      have := hbound 1
      simpa [nwWidths] using this
    have hrest : ∀ k,
        (strWidth0 + (charWidth m cache0 detail [c]).1) +
          ((nwWidths m (charWidth m cache0 detail [c]).2 detail rest).take k).sum ≤ maxWidth := by
      intro k
      have := hbound (k + 1)
      simpa [nwWidths, add_assoc] using this
    rw [noWrapLoop]
    dsimp only
    have hnm : ¬ (strWidth0 + (charWidth m cache0 detail [c]).1 > maxWidth) := not_lt.2 h1
    by_cases h2 : strWidth0 + (charWidth m cache0 detail [c]).1 > budget
    · rw [if_pos h2, if_neg hnm, ih]
      · simp [nwWidths, add_assoc]
      · exact hrest
    · rw [if_neg h2, ih]
      · simp [nwWidths, add_assoc]
      · exact hrest

/-- Witness for C7 at a concrete state: the last two characters push the
running width past the budget of eighteen but the string ends at width
twenty-one, below the max width of thirty, so the full text comes back
without an ellipsis. -/
theorem C7_noWrap_soft_overflow_witness :
    noWrapLoop (addOracle w3 20) cfgEll12 ⟨"abcdefg".data, 30, 15, 21, 20⟩ 30 18 "...".data
      "fg".data "abcde".data 15 none [] []
    = { text := "abcdefg".data, maxWidth := 30, maxHeight := 15, width := 21,
        height := 10, oriTextWidth := 21, oriTextHeight := 20,
        oriText := "abcdefg".data, isTruncated := false, tooltext := none } := by
  have hw : nwWidths (addOracle w3 20) [] [] "fg".data = [3, 3] := by
    with_unfolding_all rfl
  have h := C7_noWrap_soft_overflow (addOracle w3 20) cfgEll12
    ⟨"abcdefg".data, 30, 15, 21, 20⟩ 30 18 "...".data [] "fg".data "abcde".data 15 none []
    (by
      intro k
      rw [hw]
      match k with
      | 0 => norm_num
      | 1 => norm_num [List.take]
      | (n + 2) => norm_num [List.take])
  exact h.trans (by with_unfolding_all rfl)

/-- C9: when the fast fit fails, the degenerate branches return silently
with empty text and all-zero metrics, for any ellipsis setting: if the line
height alone exceeds the effective max height, and likewise if the first
character's seeded width does not fit the ellipsis-reduced budget and
exceeds the absolute max width. -/
theorem C9_degenerate_zero_result (cfg : Config) (m : Oracle) (text : List Char)
    (maxWidth maxHeight : ℚ) (noWrap : Bool) (st : AdvState) (cache0 : CharCache)
    (g : OriDetail) (st2 : AdvState)
    (hg : getOriSizeDetailed cfg m (ltgtReplace text) st = (some g, st2))
    (hnofit : ¬ (g.height ≤ effMaxHeight cfg maxHeight ∧ g.width ≤ maxWidth)) :
    (cfg.lineHeight > effMaxHeight cfg maxHeight →
      getSmartTextPlain cfg m text maxWidth maxHeight noWrap st cache0
        = some (zeroRecord text maxWidth maxHeight))
    ∧ (cfg.lineHeight ≤ effMaxHeight cfg maxHeight →
       ¬ ((if cfg.showNoEllipses then maxWidth else maxWidth - cfg.ellipsesWidth) >
          (seedMinWidth m cache0 (firstChar (collapseWs (fastTrim text)))).1) →
       (seedMinWidth m cache0 (firstChar (collapseWs (fastTrim text)))).1 > maxWidth →
       getSmartTextPlain cfg m text maxWidth maxHeight noWrap st cache0
        = some (zeroRecord text maxWidth maxHeight)) := by
  constructor
  · intro hlh
    unfold getSmartTextPlain
    dsimp only
    rw [hg]
    dsimp only
    rw [if_neg hnofit, if_pos hlh]
  · intro hlh hbud hbig
    unfold getSmartTextPlain
    dsimp only
    rw [hg]
    dsimp only
    rw [if_neg hnofit, if_neg (not_lt.2 hlh)]
    rw [if_neg hbud, if_pos hbig]

/-- Witness for C9 at two concrete inputs: a line height of ten against a
max height of five (too short for any line), and a first character of width
fifty against a max width of twelve (too narrow for any character), both
returning the all-zero empty result. -/
theorem C9_degenerate_zero_result_witness :
    getSmartTextPlain cfgEll6 (addOracle w3 10) "ab".data 100 5 true AdvState.empty []
      = some (zeroRecord "ab".data 100 5)
    ∧ getSmartTextPlain cfgEll6 (addOracle w3W 10) "Wa".data 12 50 false AdvState.empty []
      = some (zeroRecord "Wa".data 12 50) := by
  constructor
  · exact (C9_degenerate_zero_result cfgEll6 (addOracle w3 10) "ab".data 100 5 true
      AdvState.empty [] ⟨6, 10, [(['a'], 3), (['b'], 3)]⟩
      (getOriSizeDetailed cfgEll6 (addOracle w3 10) (ltgtReplace "ab".data) AdvState.empty).2
      (by with_unfolding_all rfl)
      (by with_unfolding_all decide)).1
      (by norm_num [cfgEll6, effMaxHeight])
  · exact (C9_degenerate_zero_result cfgEll6 (addOracle w3W 10) "Wa".data 12 50 false
      AdvState.empty [] ⟨53, 10, [(['W'], 50), (['a'], 3)]⟩
      (getOriSizeDetailed cfgEll6 (addOracle w3W 10) (ltgtReplace "Wa".data) AdvState.empty).2
      (by with_unfolding_all rfl)
      (by with_unfolding_all decide)).2
      (by norm_num [cfgEll6, effMaxHeight])
      (by with_unfolding_all decide)
      (by with_unfolding_all decide)

/-! ## Association-list lemmas for the cache maps -/

theorem jsGet_jsSet (m : List (List Char × CacheVal)) (k k' : List Char) (v : CacheVal) :
    jsGet (jsSet m k v) k' = if k = k' then some v else jsGet m k' := by
  induction m with
  | nil =>
    by_cases h : k = k'
    · subst h; simp [jsGet, jsSet]
    · simp [jsGet, jsSet, h]
  | cons p rest ih =>
    obtain ⟨k1, v1⟩ := p
    by_cases h1 : k1 = k
    · subst h1
      by_cases h : k1 = k'
      · subst h; simp [jsGet, jsSet]
      · simp [jsGet, jsSet, h]
    · by_cases h : k1 = k'
      · subst h
        have h2 : ¬ k = k1 := fun hh => h1 hh.symm
        simp [jsGet, jsSet, h1, h2]
      · simp [jsGet, jsSet, h1, h, ih]

theorem jsGet_jsDel (m : List (List Char × CacheVal)) (k k' : List Char) :
    jsGet (jsDel m k) k' = if k = k' then none else jsGet m k' := by
  induction m with
  | nil =>
    by_cases h : k = k' <;> simp [jsGet, jsDel, h]
  | cons p rest ih =>
    obtain ⟨k1, v1⟩ := p
    by_cases h1 : k1 = k
    · subst h1
      by_cases h : k1 = k'
      · subst h; simp [jsDel, ih]
      · simp [jsDel, jsGet, ih, h]
    · by_cases h : k1 = k'
      · subst h
        have h2 : ¬ k = k1 := fun hh => h1 hh.symm
        simp [jsDel, jsGet, h1, h2, ih]
      · simp [jsDel, jsGet, h1, h, ih]

theorem mapfst_jsSet (m : List (List Char × CacheVal)) (k : List Char) (v : CacheVal) :
    (jsSet m k v).map Prod.fst
    = if (jsGet m k).isSome then m.map Prod.fst else m.map Prod.fst ++ [k] := by
  induction m with
  | nil => simp [jsGet, jsSet]
  | cons p rest ih =>
    obtain ⟨k1, v1⟩ := p
    by_cases h1 : k1 = k
    · subst h1
      simp [jsGet, jsSet]
    · simp only [jsSet, if_neg h1, List.map_cons, ih, jsGet]
      by_cases h3 : (jsGet rest k).isSome <;> simp [h1, h3]

theorem length_jsSet (m : List (List Char × CacheVal)) (k : List Char) (v : CacheVal) :
    (jsSet m k v).length
    = if (jsGet m k).isSome then m.length else m.length + 1 := by
  induction m with
  | nil => simp [jsGet, jsSet]
  | cons p rest ih =>
    obtain ⟨k1, v1⟩ := p
    by_cases h1 : k1 = k
    · subst h1
      simp [jsGet, jsSet]
    · simp only [jsSet, if_neg h1, List.length_cons, ih, jsGet]
      by_cases h3 : (jsGet rest k).isSome <;> simp [h1, h3]

theorem length_jsDel_le (m : List (List Char × CacheVal)) (k : List Char) :
    (jsDel m k).length ≤ m.length := by
  induction m with
  | nil => simp [jsDel]
  | cons p rest ih =>
    obtain ⟨k1, v1⟩ := p
    by_cases h1 : k1 = k <;> simp [jsDel, h1] <;> omega

theorem mem_jsSet_val (m : List (List Char × CacheVal)) (k a : List Char)
    (v b : CacheVal) (hmem : (a, b) ∈ jsSet m k v) :
    (a = k ∧ b = v) ∨ (a, b) ∈ m := by
  induction m with
  | nil =>
    simp [jsSet] at hmem
    exact Or.inl hmem
  | cons p rest ih =>
    obtain ⟨k1, v1⟩ := p
    by_cases h1 : k1 = k
    · subst h1
      simp [jsSet] at hmem
      rcases hmem with ⟨rfl, rfl⟩ | h
      · exact Or.inl ⟨rfl, rfl⟩
      · exact Or.inr (List.mem_cons_of_mem _ h)
    · simp only [jsSet, if_neg h1, List.mem_cons] at hmem
      rcases hmem with h | h
      · exact Or.inr (List.mem_cons.2 (Or.inl h))
      · rcases ih h with h2 | h2
        · exact Or.inl h2
        · exact Or.inr (List.mem_cons_of_mem _ h2)

theorem mem_jsDel_val (m : List (List Char × CacheVal)) (k a : List Char)
    (b : CacheVal) (hmem : (a, b) ∈ jsDel m k) : (a, b) ∈ m := by
  induction m with
  | nil => simp [jsDel] at hmem
  | cons p rest ih =>
    obtain ⟨k1, v1⟩ := p
    by_cases h1 : k1 = k
    · subst h1
      simp only [jsDel, if_pos rfl] at hmem
      exact List.mem_cons_of_mem _ (ih hmem)
    · simp only [jsDel, if_neg h1, List.mem_cons] at hmem
      rcases hmem with h | h
      · exact List.mem_cons.2 (Or.inl h)
      · exact List.mem_cons_of_mem _ (ih h)

/-! ## Fresh-key cache lemmas and the repetition correction (C4) -/

theorem insertEvict_no_evict (limit : Nat) (st : AdvState) (k : List Char) (v : CacheVal)
    (h : st.keys.length + 1 ≤ limit) :
    insertEvict limit st k v = ⟨jsSet st.cache k v, st.keys ++ [k]⟩ := by
  unfold insertEvict
  rw [if_neg]
  simp only [List.length_append, List.length_cons, List.length_nil, gt_iff_lt, not_lt]
  omega

theorem initKey_length (sfx t : List Char) :
    (initKey sfx t).length = t.length + 4 + sfx.length := by
  simp [initKey]
  omega

theorem nameKey_length (sfx t : List Char) :
    (nameKey sfx t).length = t.length + sfx.length := by
  simp [nameKey]

theorem initKey_ne_nameKey (sfx t u : List Char) (hlen : t.length = u.length) :
    initKey sfx t ≠ nameKey sfx u := by
  intro h
  have := congrArg List.length h
  rw [initKey_length, nameKey_length] at this
  omega

theorem initKey_inj_char (sfx : List Char) (c c' : Char)
    (h : initKey sfx [c] = initKey sfx [c']) : c = c' := by
  simpa [initKey] using congrArg (fun l => l.headI) h

theorem nameKey_inj_char (sfx : List Char) (c c' : Char)
    (h : nameKey sfx [c] = nameKey sfx [c']) : c = c' := by
  simpa [nameKey] using congrArg (fun l => l.headI) h

theorem calCharDim_fresh (cfg : Config) (m : Oracle) (t : List Char) (L : Nat)
    (st : AdvState)
    (hfi : jsGet st.cache (initKey cfg.styleSuffix t) = none)
    (hfn : jsGet st.cache (nameKey cfg.styleSuffix t) = none)
    (hcap : st.keys.length + 2 ≤ cfg.maxCacheLimit) :
    calCharDim cfg m t true L st
    = (some ⟨perCharW m t L, m.h (replSpl t)⟩,
       ⟨jsSet (jsSet st.cache (initKey cfg.styleSuffix t) (.corr (corrOf m t L)))
              (nameKey cfg.styleSuffix t)
              (.dims (perCharW m t L) (m.h (replSpl t))),
        st.keys ++ [initKey cfg.styleSuffix t, nameKey cfg.styleSuffix t]⟩) := by
  have hne : initKey cfg.styleSuffix t ≠ nameKey cfg.styleSuffix t :=
    initKey_ne_nameKey cfg.styleSuffix t t rfl
  unfold calCharDim
  dsimp only
  have hfi2 : jsGet st.cache (t ++ "init".data ++ cfg.styleSuffix) = none := by
    simpa [initKey] using hfi
  rw [hfi2]
  rw [insertEvict_no_evict _ _ _ _ (by omega)]
  dsimp only
  have hget : jsGet (jsSet st.cache (initKey cfg.styleSuffix t) (.corr (corrOf m t L)))
      (t ++ cfg.styleSuffix) = none := by
    rw [show t ++ cfg.styleSuffix = nameKey cfg.styleSuffix t from rfl]
    rw [jsGet_jsSet]
    rw [if_neg hne]
    simpa [nameKey] using hfn
  rw [show (⟨jsSet st.cache (t ++ "init".data ++ cfg.styleSuffix)
        (CacheVal.corr ((m.w (repeatL (replSpl t) L) - (L : ℚ) * m.w (replSpl t)) / ((L : ℚ) + 1))),
      st.keys ++ [t ++ "init".data ++ cfg.styleSuffix]⟩ : AdvState)
      = (⟨jsSet st.cache (initKey cfg.styleSuffix t) (.corr (corrOf m t L)),
          st.keys ++ [initKey cfg.styleSuffix t]⟩ : AdvState) from rfl]
  rw [if_neg (show ¬¬(true = true) by simp)]
  dsimp only
  rw [hget]
  rw [insertEvict_no_evict _ _ _ _ (by simp only [List.length_append, List.length_cons, List.length_nil]; omega)]
  dsimp only
  simp [perCharW, corrOf, nameKey]


theorem oriFold_spec (cfg : Config) (m : Oracle) (L : Nat) :
    ∀ (chars : List Char) (st : AdvState) (cum hmax : ℚ) (det : List (List Char × ℚ)),
      chars.Nodup →
      st.keys.length + 2 * chars.length ≤ cfg.maxCacheLimit →
      (∀ c ∈ chars, jsGet st.cache (initKey cfg.styleSuffix [c]) = none ∧
                    jsGet st.cache (nameKey cfg.styleSuffix [c]) = none) →
      ∃ st2 : AdvState,
        oriFold cfg m L chars st cum hmax det
        = (some ⟨jsRound (cum + (chars.map (fun c => perCharW m [c] L)).sum),
                 (chars.map (fun c => m.h (replSpl [c]))).foldl max hmax,
                 chars.foldl (fun d c => jsSetQ d [c] (perCharW m [c] L)) det⟩, st2) := by
  intro chars
  induction chars with
  | nil =>
    intro st cum hmax det _ _ _
    exact ⟨st, by simp [oriFold]⟩
  | cons c rest ih =>
    intro st cum hmax det hnd hcap hfresh
    have hc := hfresh c (List.mem_cons_self c rest)
    have hcnotin : c ∉ rest := (List.nodup_cons.1 hnd).1
    have hstep := calCharDim_fresh cfg m [c] L st hc.1 hc.2
      (by simp only [List.length_cons] at hcap; omega)
    rw [oriFold, hstep]
    dsimp only
    set ik := initKey cfg.styleSuffix [c] with hik
    set nk := nameKey cfg.styleSuffix [c] with hnk
    have hget2 : ∀ K, K ≠ ik → K ≠ nk →
        jsGet (jsSet (jsSet st.cache ik (.corr (corrOf m [c] L))) nk
          (.dims (perCharW m [c] L) (m.h (replSpl [c])))) K = jsGet st.cache K := by
      intro K h1 h2
      rw [jsGet_jsSet, if_neg (fun hh => h2 hh.symm), jsGet_jsSet,
        if_neg (fun hh => h1 hh.symm)]
    have hfresh2 : ∀ c' ∈ rest,
        jsGet (jsSet (jsSet st.cache ik (.corr (corrOf m [c] L))) nk
          (.dims (perCharW m [c] L) (m.h (replSpl [c])))) (initKey cfg.styleSuffix [c']) = none ∧
        jsGet (jsSet (jsSet st.cache ik (.corr (corrOf m [c] L))) nk
          (.dims (perCharW m [c] L) (m.h (replSpl [c])))) (nameKey cfg.styleSuffix [c']) = none := by
      intro c' hmem
      constructor
      · rw [hget2 _ (fun hh => hcnotin ((initKey_inj_char _ _ _ hh) ▸ hmem))
          (initKey_ne_nameKey _ _ _ rfl)]
        exact (hfresh c' (List.mem_cons_of_mem _ hmem)).1
      · rw [hget2 _ (fun hh => (initKey_ne_nameKey cfg.styleSuffix [c] [c'] rfl) hh.symm)
          (fun hh => hcnotin ((nameKey_inj_char _ _ _ hh) ▸ hmem))]
        exact (hfresh c' (List.mem_cons_of_mem _ hmem)).2
    obtain ⟨st2, hrec⟩ := ih
      ⟨jsSet (jsSet st.cache ik (.corr (corrOf m [c] L))) nk
        (.dims (perCharW m [c] L) (m.h (replSpl [c]))),
       st.keys ++ [ik, nk]⟩
      (cum + perCharW m [c] L) (max hmax (m.h (replSpl [c])))
      (jsSetQ det [c] (perCharW m [c] L))
      (List.nodup_cons.1 hnd).2
      (by simp only [List.length_append, List.length_cons, List.length_nil]
          simp only [List.length_cons] at hcap
          omega)
      hfresh2
    rw [hrec]
    exact ⟨st2, by simp [add_assoc]⟩


theorem C4_repetition_correction :
    (∀ (cfg : Config) (m : Oracle) (t : List Char) (L : Nat) (st : AdvState),
      jsGet st.cache (initKey cfg.styleSuffix t) = none →
      jsGet st.cache (nameKey cfg.styleSuffix t) = none →
      st.keys.length + 2 ≤ cfg.maxCacheLimit →
      (calCharDim cfg m t true L st).1
        = some ⟨m.w (replSpl t)
            + (m.w (repeatL (replSpl t) L) - (L : ℚ) * m.w (replSpl t)) / ((L : ℚ) + 1),
            m.h (replSpl t)⟩
      ∧ jsGet ((calCharDim cfg m t true L st).2).cache (initKey cfg.styleSuffix t)
          = some (.corr (corrOf m t L))
      ∧ ((calCharDim cfg m t true L st).2).keys
          = st.keys ++ [initKey cfg.styleSuffix t, nameKey cfg.styleSuffix t])
    ∧ (∀ (cfg : Config) (m : Oracle) (text : List Char),
      text.Nodup →
      2 * text.length ≤ cfg.maxCacheLimit →
      (getOriSizeDetailed cfg m text AdvState.empty).1
        = some ⟨jsRound ((text.map (fun c => perCharW m [c] text.length)).sum),
                (text.map (fun c => m.h (replSpl [c]))).foldl max 0,
                text.foldl (fun d c => jsSetQ d [c] (perCharW m [c] text.length)) []⟩) := by
  constructor
  · intro cfg m t L st hfi hfn hcap
    rw [calCharDim_fresh cfg m t L st hfi hfn hcap]
    refine ⟨by simp [perCharW, corrOf], ?_, rfl⟩
    dsimp only
    rw [jsGet_jsSet,
      if_neg (fun hh => (initKey_ne_nameKey cfg.styleSuffix t t rfl) hh.symm),
      jsGet_jsSet, if_pos rfl]
  · intro cfg m text hnd hcap
    obtain ⟨st2, h⟩ := oriFold_spec cfg m text.length text AdvState.empty 0 0 [] hnd
      (by simpa [AdvState.empty] using hcap) (by intro c _; exact ⟨rfl, rfl⟩)
    unfold getOriSizeDetailed
    rw [h]
    simp

theorem C4_repetition_correction_witness :
    ((calCharDim cfgLim3 mConst ['x'] true 2 AdvState.empty).1
        = some ⟨5 + (5 - (2 : ℚ) * 5) / ((2 : ℚ) + 1), 7⟩
      ∧ jsGet ((calCharDim cfgLim3 mConst ['x'] true 2 AdvState.empty).2).cache
          (initKey cfgLim3.styleSuffix ['x'])
          = some (.corr (corrOf mConst ['x'] 2))
      ∧ ((calCharDim cfgLim3 mConst ['x'] true 2 AdvState.empty).2).keys
          = [] ++ [initKey cfgLim3.styleSuffix ['x'], nameKey cfgLim3.styleSuffix ['x']])
    ∧ (getOriSizeDetailed cfgEll6 mConst "ab".data AdvState.empty).1
        = some ⟨jsRound ((("ab".data).map (fun c => perCharW mConst [c] 2)).sum),
                (("ab".data).map (fun c => mConst.h (replSpl [c]))).foldl max 0,
                ("ab".data).foldl (fun d c => jsSetQ d [c] (perCharW mConst [c] 2)) []⟩ := by
  constructor
  · exact (C4_repetition_correction.1 cfgLim3 mConst ['x'] 2 AdvState.empty rfl rfl
      (by norm_num [cfgLim3, AdvState.empty]))
  · exact (C4_repetition_correction.2 cfgEll6 mConst "ab".data
      (by with_unfolding_all decide) (by norm_num [cfgEll6]))

/-! ## Cache-invariant lemmas for the amended C3 -/

/-- A key is present in the map exactly when jsGet finds it. -/
theorem jsGet_isSome_iff_mem (m : List (List Char × CacheVal)) (k : List Char) :
    (jsGet m k).isSome ↔ k ∈ m.map Prod.fst := by
  induction m with
  | nil => simp [jsGet]
  | cons p rest ih =>
    obtain ⟨k1, v1⟩ := p
    simp only [List.map_cons, List.mem_cons]
    by_cases h1 : k1 = k
    · subst h1
      constructor
      · intro _
        exact Or.inl rfl
      · intro _
        rw [show jsGet ((k1, v1) :: rest) k1 = some v1 from by simp [jsGet]]
        rfl
    · rw [show jsGet ((k1, v1) :: rest) k = jsGet rest k from by simp [jsGet, h1]]
      rw [ih]
      constructor
      · exact fun hh => Or.inr hh
      · rintro (hh | hh)
        · exact absurd hh.symm h1
        · exact hh

/-- Deleting a key filters it out of the key list. -/
theorem mapfst_jsDel (m : List (List Char × CacheVal)) (k : List Char) :
    (jsDel m k).map Prod.fst = (m.map Prod.fst).filter (fun x => x ≠ k) := by
  induction m with
  | nil => simp [jsDel]
  | cons p rest ih =>
    obtain ⟨k1, v1⟩ := p
    by_cases h1 : k1 = k <;> simp [jsDel, h1, ih, List.filter]

/-- Inserting a fresh key through the push-and-evict step preserves the
intact-cache invariant, provided a correction value is only stored under the
correction key of one of the calls. -/
theorem insertEvict_inv (cfg : Config) (calls : List CacheCall) (st : AdvState)
    (k : List Char) (v : CacheVal)
    (hfresh : jsGet st.cache k = none)
    (hvk : ∀ d, v = CacheVal.corr d → ∃ c ∈ calls, k = initKey cfg.styleSuffix c.text)
    (hinv : cacheInv cfg calls st) :
    cacheInv cfg calls (insertEvict cfg.maxCacheLimit st k v) := by
  obtain ⟨hnd, hcnd, hsync, hcorr, hlen⟩ := hinv
  have hkmem : k ∉ st.keys := by
    rw [← hsync]
    simp [hfresh]
  have hget1 : ∀ x, jsGet (jsSet st.cache k v) x
      = if k = x then some v else jsGet st.cache x :=
    fun x => jsGet_jsSet st.cache k x v
  have hmapf : (jsSet st.cache k v).map Prod.fst = st.cache.map Prod.fst ++ [k] := by
    rw [mapfst_jsSet]
    rw [if_neg (by simp [hfresh])]
  have hknotinc : k ∉ st.cache.map Prod.fst := by
    intro hx
    exact hkmem ((hsync k).1 ((jsGet_isSome_iff_mem _ _).2 hx))
  have hcnd1 : ((jsSet st.cache k v).map Prod.fst).Nodup := by
    rw [hmapf]
    refine List.Nodup.append hcnd (List.nodup_singleton k) ?_
    intro a ha hb
    simp at hb
    subst hb
    exact hknotinc ha
  have hcorr1 : ∀ x d, jsGet (jsSet st.cache k v) x = some (CacheVal.corr d) →
      ∃ c ∈ calls, x = initKey cfg.styleSuffix c.text := by
    intro x d hx
    rw [hget1] at hx
    by_cases hkx : k = x
    · rw [if_pos hkx] at hx
      subst hkx
      exact hvk d (Option.some.inj hx)
    · rw [if_neg hkx] at hx
      exact hcorr x d hx
  unfold insertEvict
  by_cases hev : (st.keys ++ [k]).length > cfg.maxCacheLimit
  · rw [if_pos hev]
    cases hkeys : st.keys with
    | nil =>
      dsimp only [List.nil_append]
      refine ⟨List.nodup_nil, ?_, ?_, ?_, by simp⟩
      · rw [mapfst_jsDel]
        exact hcnd1.filter _
      · intro x
        rw [jsGet_jsDel]
        by_cases hkx : k = x
        · simp [hkx]
        · rw [if_neg hkx, hget1, if_neg hkx]
          rw [hsync, hkeys]
      · intro x d hx
        rw [jsGet_jsDel] at hx
        by_cases hkx : k = x
        · rw [if_pos hkx] at hx
          exact absurd hx (by simp)
        · rw [if_neg hkx] at hx
          exact hcorr1 x d hx
    | cons old restk =>
      dsimp only [List.cons_append]
      have hkmem2 : k ∉ old :: restk := hkeys ▸ hkmem
      have holdk : old ≠ k := fun hh =>
        hkmem2 (hh ▸ List.mem_cons_self old restk)
      have hndk : (old :: restk).Nodup := hkeys ▸ hnd
      have holdnotin : old ∉ restk := (List.nodup_cons.1 hndk).1
      have hknotin2 : k ∉ restk := fun hh => hkmem2 (List.mem_cons_of_mem _ hh)
      refine ⟨?_, ?_, ?_, ?_, ?_⟩
      · refine List.Nodup.append (List.nodup_cons.1 hndk).2 (List.nodup_singleton k) ?_
        intro a ha hb
        simp at hb
        subst hb
        exact hknotin2 ha
      · rw [mapfst_jsDel]
        exact hcnd1.filter _
      · intro x
        rw [jsGet_jsDel]
        by_cases hox : old = x
        · subst hox
          simp only [if_pos rfl, Option.isSome_none]
          constructor
          · intro hh; exact absurd hh (by simp)
          · intro hh
            rcases List.mem_append.1 hh with h1 | h1
            · exact absurd h1 holdnotin
            · simp at h1
              exact absurd h1 holdk
        · rw [if_neg hox, hget1]
          by_cases hkx : k = x
          · subst hkx
            simp
          · rw [if_neg hkx]
            rw [hsync, hkeys]
            constructor
            · intro hh
              rcases List.mem_cons.1 hh with h1 | h1
              · exact absurd h1.symm hox
              · exact List.mem_append.2 (Or.inl h1)
            · intro hh
              rcases List.mem_append.1 hh with h1 | h1
              · exact List.mem_cons_of_mem _ h1
              · simp at h1
                exact absurd h1.symm hkx
      · intro x d hx
        rw [jsGet_jsDel] at hx
        by_cases hox : old = x
        · rw [if_pos hox] at hx
          exact absurd hx (by simp)
        · rw [if_neg hox] at hx
          exact hcorr1 x d hx
      · have hl2 : st.keys.length = restk.length + 1 := by rw [hkeys]; rfl
        simp only [List.length_append, List.length_cons, List.length_nil]
        omega
  · rw [if_neg hev]
    refine ⟨?_, hcnd1, ?_, hcorr1, ?_⟩
    · refine List.Nodup.append hnd (List.nodup_singleton k) ?_
      intro a ha hb
      simp at hb
      subst hb
      exact hkmem ha
    · intro x
      rw [hget1]
      by_cases hkx : k = x
      · subst hkx
        simp
      · rw [if_neg hkx]
        rw [hsync]
        constructor
        · intro hh; exact List.mem_append.2 (Or.inl hh)
        · intro hh
          rcases List.mem_append.1 hh with h1 | h1
          · exact h1
          · simp at h1
            exact absurd h1.symm hkx
    · simp only [List.length_append, List.length_cons, List.length_nil] at hev ⊢
      omega

/-- One _calCharDimWithCache call preserves the intact-cache invariant when
no measured text's plain key collides with any call's correction key. -/
theorem calCharDim_inv (cfg : Config) (m : Oracle) (calls : List CacheCall)
    (c : CacheCall) (hc : c ∈ calls)
    (hcol : ∀ c2 ∈ calls, nameKey cfg.styleSuffix c.text ≠ initKey cfg.styleSuffix c2.text)
    (st : AdvState) (hinv : cacheInv cfg calls st) :
    cacheInv cfg calls ((calCharDim cfg m c.text c.diff c.len st).2) := by
  unfold calCharDim
  dsimp only
  by_cases hdiff : c.diff = true
  · rw [if_neg (by simp [hdiff])]
    rcases hget : jsGet st.cache (c.text ++ "init".data ++ cfg.styleSuffix) with _ | val
    · dsimp only
      have hinv1 := insertEvict_inv cfg calls st
        (c.text ++ "init".data ++ cfg.styleSuffix)
        (CacheVal.corr ((m.w (repeatL (replSpl c.text) c.len) -
          (c.len : ℚ) * m.w (replSpl c.text)) / ((c.len : ℚ) + 1)))
        hget (fun d _ => ⟨c, hc, rfl⟩) hinv
      rcases hget2 : jsGet (insertEvict cfg.maxCacheLimit st
          (c.text ++ "init".data ++ cfg.styleSuffix)
          (CacheVal.corr ((m.w (repeatL (replSpl c.text) c.len) -
            (c.len : ℚ) * m.w (replSpl c.text)) / ((c.len : ℚ) + 1)))).cache
          (c.text ++ cfg.styleSuffix) with _ | val2
      · dsimp only
        exact insertEvict_inv cfg calls _ _ _ hget2 (fun d hd => by cases hd) hinv1
      · cases val2 with
        | dims w h =>
          exact hinv1
        | corr d =>
          exfalso
          obtain ⟨c2, hc2, hk⟩ := hinv1.2.2.2.1 _ _ hget2
          exact hcol c2 hc2 hk
    · cases val with
      | dims w h =>
        exact hinv
      | corr d =>
        dsimp only
        rcases hget2 : jsGet st.cache (c.text ++ cfg.styleSuffix) with _ | val2
        · dsimp only
          exact insertEvict_inv cfg calls st _ _ hget2 (fun d2 hd => by cases hd) hinv
        · cases val2 with
          | dims w h =>
            exact hinv
          | corr d2 =>
            exfalso
            obtain ⟨c2, hc2, hk⟩ := hinv.2.2.2.1 _ _ hget2
            exact hcol c2 hc2 hk
  · rw [if_pos (by simp [hdiff])]
    dsimp only
    rcases hget2 : jsGet st.cache (c.text ++ cfg.styleSuffix) with _ | val2
    · dsimp only
      exact insertEvict_inv cfg calls st _ _ hget2 (fun d hd => by cases hd) hinv
    · cases val2 with
      | dims w h =>
        exact hinv
      | corr d =>
        exfalso
        obtain ⟨c2, hc2, hk⟩ := hinv.2.2.2.1 _ _ hget2
        exact hcol c2 hc2 hk


/-- Any sequence of collision-free calls preserves the invariant. -/
theorem runCalls_inv (cfg : Config) (m : Oracle) (calls : List CacheCall)
    (hcol : ∀ c1 ∈ calls, ∀ c2 ∈ calls,
      nameKey cfg.styleSuffix c1.text ≠ initKey cfg.styleSuffix c2.text) :
    ∀ (pending : List CacheCall), (∀ c ∈ pending, c ∈ calls) →
      ∀ (st : AdvState), cacheInv cfg calls st →
        cacheInv cfg calls (runCalls cfg m pending st) := by
  intro pending
  induction pending with
  | nil =>
    intro _ st hinv
    exact hinv
  | cons c rest ih =>
    intro hsub st hinv
    rw [runCalls]
    exact ih (fun x hx => hsub x (List.mem_cons_of_mem _ hx))
      _ (calCharDim_inv cfg m calls c (hsub c (List.mem_cons_self c rest))
          (hcol c (hsub c (List.mem_cons_self c rest))) st hinv)

/-- insertEvict preserves the unconditional bound invariant: whether the key
is fresh (appended) or already cached (overwritten in place while its key is
pushed again), the list grows by at most one and the conditional shift
restores the bound. -/
theorem insertEvict_boundInv (limit : Nat) (st : AdvState) (k : List Char)
    (v : CacheVal) (hinv : boundInv limit st) :
    boundInv limit (insertEvict limit st k v) := by
  obtain ⟨hnd, hsub, hlen⟩ := hinv
  have hget1 : ∀ x, jsGet (jsSet st.cache k v) x
      = if k = x then some v else jsGet st.cache x :=
    fun x => jsGet_jsSet st.cache k x v
  have hnd1 : ((jsSet st.cache k v).map Prod.fst).Nodup := by
    rw [mapfst_jsSet]
    by_cases hk : (jsGet st.cache k).isSome
    · rw [if_pos hk]
      exact hnd
    · rw [if_neg hk]
      refine List.Nodup.append hnd (List.nodup_singleton k) ?_
      intro a ha hb
      simp at hb
      subst hb
      exact hk ((jsGet_isSome_iff_mem _ _).2 ha)
  unfold insertEvict
  by_cases hev : (st.keys ++ [k]).length > limit
  · rw [if_pos hev]
    cases hkeys : st.keys with
    | nil =>
      dsimp only [List.nil_append]
      refine ⟨?_, ?_, by simp⟩
      · rw [mapfst_jsDel]
        exact hnd1.filter _
      · intro x hx
        rw [jsGet_jsDel] at hx
        by_cases hkx : k = x
        · rw [if_pos hkx] at hx
          simp at hx
        · rw [if_neg hkx, hget1, if_neg hkx] at hx
          have hmem := hsub x hx
          rw [hkeys] at hmem
          simp at hmem
    | cons old restk =>
      dsimp only [List.cons_append]
      refine ⟨?_, ?_, ?_⟩
      · rw [mapfst_jsDel]
        exact hnd1.filter _
      · intro x hx
        rw [jsGet_jsDel] at hx
        by_cases hox : old = x
        · rw [if_pos hox] at hx
          simp at hx
        · rw [if_neg hox, hget1] at hx
          by_cases hkx : k = x
          · subst hkx
            exact List.mem_append.2 (Or.inr (by simp))
          · rw [if_neg hkx] at hx
            have hmem := hsub x hx
            rw [hkeys] at hmem
            rcases List.mem_cons.1 hmem with h1 | h1
            · exact absurd h1.symm hox
            · exact List.mem_append.2 (Or.inl h1)
      · have hl2 : st.keys.length = restk.length + 1 := by rw [hkeys]; rfl
        simp only [List.length_append, List.length_cons, List.length_nil]
        omega
  · rw [if_neg hev]
    refine ⟨hnd1, ?_, ?_⟩
    · intro x hx
      rw [hget1] at hx
      by_cases hkx : k = x
      · subst hkx
        exact List.mem_append.2 (Or.inr (by simp))
      · rw [if_neg hkx] at hx
        exact List.mem_append.2 (Or.inl (hsub x hx))
    · simp only [List.length_append, List.length_cons, List.length_nil] at hev ⊢
      omega

/-- Every path of one _calCharDimWithCache call — including the colliding
falsy-correction overwrite — preserves the unconditional bound invariant. -/
theorem calCharDim_boundInv (cfg : Config) (m : Oracle) (text : List Char)
    (diff : Bool) (len : Nat) (st : AdvState)
    (hinv : boundInv cfg.maxCacheLimit st) :
    boundInv cfg.maxCacheLimit ((calCharDim cfg m text diff len st).2) := by
  unfold calCharDim
  dsimp only
  by_cases hdiff : diff = true
  · rw [if_neg (by simp [hdiff])]
    rcases hget : jsGet st.cache (text ++ "init".data ++ cfg.styleSuffix) with _ | val
    · dsimp only
      have hinv1 := insertEvict_boundInv cfg.maxCacheLimit st
        (text ++ "init".data ++ cfg.styleSuffix)
        (CacheVal.corr ((m.w (repeatL (replSpl text) len) -
          (len : ℚ) * m.w (replSpl text)) / ((len : ℚ) + 1))) hinv
      rcases hget2 : jsGet (insertEvict cfg.maxCacheLimit st
          (text ++ "init".data ++ cfg.styleSuffix)
          (CacheVal.corr ((m.w (repeatL (replSpl text) len) -
            (len : ℚ) * m.w (replSpl text)) / ((len : ℚ) + 1)))).cache
          (text ++ cfg.styleSuffix) with _ | val2
      · dsimp only
        exact insertEvict_boundInv cfg.maxCacheLimit _ _ _ hinv1
      · cases val2 with
        | dims w h =>
          exact hinv1
        | corr d =>
          dsimp only
          by_cases hd : d ≠ 0
          · rw [if_pos hd]
            exact hinv1
          · rw [if_neg hd]
            dsimp only
            exact insertEvict_boundInv cfg.maxCacheLimit _ _ _ hinv1
    · cases val with
      | dims w h =>
        exact hinv
      | corr d =>
        dsimp only
        rcases hget2 : jsGet st.cache (text ++ cfg.styleSuffix) with _ | val2
        · dsimp only
          exact insertEvict_boundInv cfg.maxCacheLimit st _ _ hinv
        · cases val2 with
          | dims w h =>
            exact hinv
          | corr d2 =>
            dsimp only
            by_cases hd : d2 ≠ 0
            · rw [if_pos hd]
              exact hinv
            · rw [if_neg hd]
              dsimp only
              exact insertEvict_boundInv cfg.maxCacheLimit st _ _ hinv
  · rw [if_pos (by simp [hdiff])]
    dsimp only
    rcases hget2 : jsGet st.cache (text ++ cfg.styleSuffix) with _ | val2
    · dsimp only
      exact insertEvict_boundInv cfg.maxCacheLimit st _ _ hinv
    · cases val2 with
      | dims w h =>
        exact hinv
      | corr d =>
        dsimp only
        by_cases hd : d ≠ 0
        · rw [if_pos hd]
          exact hinv
        · rw [if_neg hd]
          dsimp only
          exact insertEvict_boundInv cfg.maxCacheLimit st _ _ hinv

/-- Any call sequence whatsoever preserves the unconditional bound
invariant. -/
theorem runCalls_boundInv (cfg : Config) (m : Oracle) :
    ∀ (calls : List CacheCall) (st : AdvState),
      boundInv cfg.maxCacheLimit st →
      boundInv cfg.maxCacheLimit (runCalls cfg m calls st) := by
  intro calls
  induction calls with
  | nil =>
    intro st hinv
    exact hinv
  | cons c rest ih =>
    intro st hinv
    rw [runCalls]
    exact ih _ (calCharDim_boundInv cfg m c.text c.diff c.len st hinv)

/-- C3 amended: after any sequence of _calCharDimWithCache calls from an
empty cache — colliding or not — neither the eviction list nor the cache map
ever exceeds maxCacheLimit entries; and provided no call's measured-text key
collides with another call's correction key (no text equals another text
with the word init appended, under the same style suffix), the set of keys
on the eviction list always equals the set of keys in the cache map. -/
theorem C3_cache_bound_and_sync (cfg : Config) (m : Oracle) (calls : List CacheCall) :
    ((runCalls cfg m calls AdvState.empty).keys.length ≤ cfg.maxCacheLimit)
    ∧ ((runCalls cfg m calls AdvState.empty).cache.length ≤ cfg.maxCacheLimit)
    ∧ ((∀ c1 ∈ calls, ∀ c2 ∈ calls,
          nameKey cfg.styleSuffix c1.text ≠ initKey cfg.styleSuffix c2.text) →
        ∀ k, k ∈ (runCalls cfg m calls AdvState.empty).cache.map Prod.fst ↔
             k ∈ (runCalls cfg m calls AdvState.empty).keys) := by
  have hinv0 : boundInv cfg.maxCacheLimit AdvState.empty := by
    refine ⟨List.nodup_nil, ?_, by simp [AdvState.empty]⟩
    intro k hk
    simp [AdvState.empty, jsGet] at hk
  obtain ⟨hnd, hsub, hlen⟩ := runCalls_boundInv cfg m calls AdvState.empty hinv0
  refine ⟨hlen, ?_, ?_⟩
  · calc (runCalls cfg m calls AdvState.empty).cache.length
        = ((runCalls cfg m calls AdvState.empty).cache.map Prod.fst).length := by
          simp
      _ ≤ (runCalls cfg m calls AdvState.empty).keys.length := by
          have h1 := List.toFinset_card_of_nodup hnd
          have h3 : ((runCalls cfg m calls AdvState.empty).cache.map Prod.fst).toFinset ⊆
              (runCalls cfg m calls AdvState.empty).keys.toFinset := by
            intro x hx
            rw [List.mem_toFinset] at hx ⊢
            exact hsub x ((jsGet_isSome_iff_mem _ _).2 hx)
          have h4 := Finset.card_le_card h3
          have h5 := (runCalls cfg m calls AdvState.empty).keys.toFinset_card_le
          omega
      _ ≤ cfg.maxCacheLimit := hlen
  · intro hcol
    have hinv0c : cacheInv cfg calls AdvState.empty := by
      refine ⟨List.nodup_nil, List.nodup_nil, ?_, ?_, by simp [AdvState.empty]⟩
      · intro k
        simp [AdvState.empty, jsGet]
      · intro k d hk
        simp [AdvState.empty, jsGet] at hk
    obtain ⟨hnd2, hcnd2, hsync, hcorr2, hlen2⟩ :=
      runCalls_inv cfg m calls hcol calls (fun _ hx => hx) AdvState.empty hinv0c
    intro k
    rw [← jsGet_isSome_iff_mem]
    exact hsync k

/-- Witness for the amended C3: the unconditional bounds and, on a concrete
collision-free sequence, the list-map key-set sync. -/
theorem C3_cache_bound_and_sync_witness :
    ((runCalls cfgLim3 mConst [⟨['a'], true, 1⟩, ⟨['b'], false, 0⟩]
        AdvState.empty).keys.length ≤ cfgLim3.maxCacheLimit)
    ∧ ((runCalls cfgLim3 mConst [⟨['a'], true, 1⟩, ⟨['b'], false, 0⟩]
        AdvState.empty).cache.length ≤ cfgLim3.maxCacheLimit)
    ∧ (['a'] ∈ (runCalls cfgLim3 mConst [⟨['a'], true, 1⟩, ⟨['b'], false, 0⟩]
        AdvState.empty).cache.map Prod.fst ↔
       ['a'] ∈ (runCalls cfgLim3 mConst [⟨['a'], true, 1⟩, ⟨['b'], false, 0⟩]
        AdvState.empty).keys) := by
  have h := C3_cache_bound_and_sync cfgLim3 mConst [⟨['a'], true, 1⟩, ⟨['b'], false, 0⟩]
  exact ⟨h.1, h.2.1, h.2.2
    (by
      intro c1 hc1 c2 hc2
      fin_cases hc1 <;> fin_cases hc2 <;> with_unfolding_all decide) ['a']⟩

end Smartlabel

namespace Smartlabel

theorem sumW_nil (w0 : Char → ℚ) : sumW w0 [] = 0 := rfl

theorem sumW_cons (w0 : Char → ℚ) (c : Char) (l : List Char) :
    sumW w0 (c :: l) = w0 c + sumW w0 l := by
  simp [sumW]

theorem sumW_append (w0 : Char → ℚ) (a b : List Char) :
    sumW w0 (a ++ b) = sumW w0 a + sumW w0 b := by
  simp [sumW]

theorem sumW_nonneg (w0 : Char → ℚ) (hpos : ∀ c, 0 < w0 c) (l : List Char) :
    0 ≤ sumW w0 l := by
  induction l with
  | nil => simp [sumW]
  | cons c rest ih =>
    rw [sumW_cons]
    have := hpos c
    linarith

theorem sumW_pos (w0 : Char → ℚ) (hpos : ∀ c, 0 < w0 c) (c : Char) (l : List Char) :
    0 < sumW w0 (c :: l) := by
  rw [sumW_cons]
  have h1 := hpos c
  have h2 := sumW_nonneg w0 hpos l
  linarith

theorem sumW_sublist_le (w0 : Char → ℚ) (hpos : ∀ c, 0 < w0 c)
    (a b : List Char) (hs : a.Sublist b) : sumW w0 a ≤ sumW w0 b := by
  induction hs with
  | slnil => exact le_refl _
  | cons c _ ih =>
    rw [sumW_cons]
    have := hpos c
    linarith
  | cons₂ c _ ih =>
    rw [sumW_cons, sumW_cons]
    linarith

theorem sumW_fastTrim_le (w0 : Char → ℚ) (hpos : ∀ c, 0 < w0 c) (l : List Char) :
    sumW w0 (fastTrim l) ≤ sumW w0 l := by
  have h2 : (l.dropWhile isWs).Sublist l := List.dropWhile_sublist _
  have h4 : ((((l.dropWhile isWs).reverse.dropWhile isWs)).reverse).Sublist
      ((l.dropWhile isWs).reverse.reverse) :=
    List.Sublist.reverse (List.dropWhile_sublist _)
  rw [List.reverse_reverse] at h4
  exact sumW_sublist_le w0 hpos _ _ ((by exact h4 : (fastTrim l).Sublist _).trans h2)

theorem sumW_repeatL (w0 : Char → ℚ) (l : List Char) (n : Nat) :
    sumW w0 (repeatL l n) = (n : ℚ) * sumW w0 l := by
  induction n with
  | zero => simp [repeatL, sumW]
  | succ k ih =>
    rw [show repeatL l (k + 1) = l ++ repeatL l k from by
      simp [repeatL, List.replicate_succ]]
    rw [sumW_append, ih]
    push_cast
    ring

theorem jsGet_mem (m : List (List Char × CacheVal)) (k : List Char) (v : CacheVal)
    (h : jsGet m k = some v) : (k, v) ∈ m := by
  induction m with
  | nil => simp [jsGet] at h
  | cons p rest ih =>
    obtain ⟨k1, v1⟩ := p
    by_cases h1 : k1 = k
    · subst h1
      simp only [jsGet, if_pos rfl] at h
      simp [Option.some.inj h]
    · simp only [jsGet, if_neg h1] at h
      exact List.mem_cons_of_mem _ (ih h)

theorem jsGetQ_mem (m : List (List Char × ℚ)) (k : List Char) (v : ℚ)
    (h : jsGetQ m k = some v) : (k, v) ∈ m := by
  induction m with
  | nil => simp [jsGetQ] at h
  | cons p rest ih =>
    obtain ⟨k1, v1⟩ := p
    by_cases h1 : k1 = k
    · subst h1
      simp only [jsGetQ, if_pos rfl] at h
      simp [Option.some.inj h]
    · simp only [jsGetQ, if_neg h1] at h
      exact List.mem_cons_of_mem _ (ih h)

theorem mem_jsSetQ_val (m : List (List Char × ℚ)) (k a : List Char)
    (v b : ℚ) (hmem : (a, b) ∈ jsSetQ m k v) :
    (a = k ∧ b = v) ∨ (a, b) ∈ m := by
  induction m with
  | nil =>
    simp [jsSetQ] at hmem
    exact Or.inl hmem
  | cons p rest ih =>
    obtain ⟨k1, v1⟩ := p
    by_cases h1 : k1 = k
    · subst h1
      simp [jsSetQ] at hmem
      rcases hmem with ⟨rfl, rfl⟩ | h
      · exact Or.inl ⟨rfl, rfl⟩
      · exact Or.inr (List.mem_cons_of_mem _ h)
    · simp only [jsSetQ, if_neg h1, List.mem_cons] at hmem
      rcases hmem with h | h
      · exact Or.inr (List.mem_cons.2 (Or.inl h))
      · rcases ih h with h2 | h2
        · exact Or.inl h2
        · exact Or.inr (List.mem_cons_of_mem _ h2)

theorem nearest_le (m : Oracle) (w0 : Char → ℚ) (hm1 : ∀ c, m.w [c] = w0 c) :
    ∀ (chars : List Char) (rem : ℚ), 0 ≤ rem →
      sumW w0 (chars.take (nearestBreakIndex m chars rem)) ≤ rem := by
  intro chars
  induction chars with
  | nil =>
    intro rem h
    simpa [nearestBreakIndex, sumW] using h
  | cons c rest ih =>
    intro rem h
    rw [nearestBreakIndex]
    by_cases hc : m.w [c] ≤ rem
    · rw [if_pos hc]
      rw [hm1 c] at hc
      rw [hm1 c]
      rw [show 1 + nearestBreakIndex m rest (rem - w0 c)
          = nearestBreakIndex m rest (rem - w0 c) + 1 from by omega]
      rw [List.take_succ_cons, sumW_cons]
      have h2 := ih (rem - w0 c) (by linarith)
      linarith
    · rw [if_neg hc]
      simpa [sumW] using h

theorem jsSliceL_init (l : List α) (x : α) :
    jsSliceL (l ++ [x]) 0 (-1) = l := by
  unfold jsSliceL normIdx
  simp

end Smartlabel

namespace Smartlabel

theorem mem_insertEvict_val (limit : Nat) (st : AdvState) (k : List Char) (v : CacheVal)
    (a : List Char) (b : CacheVal)
    (hab : (a, b) ∈ (insertEvict limit st k v).cache) :
    (a = k ∧ b = v) ∨ (a, b) ∈ st.cache := by
  unfold insertEvict at hab
  by_cases hev : (st.keys ++ [k]).length > limit
  · rw [if_pos hev] at hab
    rcases hlist : st.keys ++ [k] with _ | ⟨old, restk⟩
    · rw [hlist] at hab
      dsimp only at hab
      exact mem_jsSet_val _ _ _ _ _ hab
    · rw [hlist] at hab
      dsimp only at hab
      exact mem_jsSet_val _ _ _ _ _ (mem_jsDel_val _ _ _ _ hab)
  · rw [if_neg hev] at hab
    dsimp only at hab
    exact mem_jsSet_val _ _ _ _ _ hab

theorem measInv_insertEvict (cfg : Config) (m : Oracle) (w0 : Char → ℚ)
    (st : AdvState) (k : List Char) (v : CacheVal)
    (hkv : (∃ c, k = initKey cfg.styleSuffix [c] ∧ v = CacheVal.corr 0) ∨
           (∃ c, k = nameKey cfg.styleSuffix [c] ∧
             v = CacheVal.dims (sumW w0 (replSpl [c])) (m.h (replSpl [c]))))
    (hst : measInv cfg m w0 st) :
    measInv cfg m w0 (insertEvict cfg.maxCacheLimit st k v) := by
  intro a b hab
  rcases mem_insertEvict_val _ _ _ _ _ _ hab with ⟨rfl, rfl⟩ | h
  · rcases hkv with ⟨c, hk, hv⟩ | ⟨c, hk, hv⟩
    · exact Or.inl ⟨c, hk, hv⟩
    · exact Or.inr ⟨c, hk, hv⟩
  · exact hst a b h

theorem calCharDim_additive (cfg : Config) (m : Oracle) (w0 : Char → ℚ)
    (hadd : IsAdditive m w0) (c : Char) (L : Nat) (st : AdvState)
    (hst : measInv cfg m w0 st) :
    ∃ st2, calCharDim cfg m [c] true L st
      = (some ⟨sumW w0 (replSpl [c]), m.h (replSpl [c])⟩, st2)
      ∧ measInv cfg m w0 st2 := by
  have hcorr0 : (m.w (repeatL (replSpl [c]) L) - (L : ℚ) * m.w (replSpl [c]))
      / ((L : ℚ) + 1) = 0 := by
    rw [hadd (repeatL (replSpl [c]) L), hadd (replSpl [c]), sumW_repeatL, sub_self, zero_div]
  have hw : m.w (replSpl [c]) + 0 = sumW w0 (replSpl [c]) := by
    rw [add_zero, hadd]
  have stage2 : ∀ st1 : AdvState, measInv cfg m w0 st1 →
      ∃ st2, (match jsGet st1.cache ([c] ++ cfg.styleSuffix) with
        | some (CacheVal.dims w h) => ((some ⟨w, h⟩ : Option Size), st1)
        | some (CacheVal.corr d) =>
          if d ≠ 0 then (none, st1)
          else
            (some ⟨m.w (replSpl [c]) + 0, m.h (replSpl [c])⟩,
             insertEvict cfg.maxCacheLimit st1 ([c] ++ cfg.styleSuffix)
               (CacheVal.dims (m.w (replSpl [c]) + 0) (m.h (replSpl [c]))))
        | none =>
          (some ⟨m.w (replSpl [c]) + 0, m.h (replSpl [c])⟩,
           insertEvict cfg.maxCacheLimit st1 ([c] ++ cfg.styleSuffix)
             (CacheVal.dims (m.w (replSpl [c]) + 0) (m.h (replSpl [c])))))
        = ((some ⟨sumW w0 (replSpl [c]), m.h (replSpl [c])⟩ : Option Size), st2)
        ∧ measInv cfg m w0 st2 := by
    intro st1 hst1
    rcases hget2 : jsGet st1.cache ([c] ++ cfg.styleSuffix) with _ | val2
    · dsimp only
      rw [hw]
      exact ⟨_, rfl, measInv_insertEvict cfg m w0 st1 _ _ (Or.inr ⟨c, rfl, rfl⟩) hst1⟩
    · cases val2 with
      | dims w h =>
        rcases hst1 _ _ (jsGet_mem _ _ _ hget2) with ⟨c2, hk, hv⟩ | ⟨c2, hk, hv⟩
        · exact absurd hk.symm (initKey_ne_nameKey cfg.styleSuffix [c2] [c] rfl)
        · have hc2 : c = c2 := nameKey_inj_char cfg.styleSuffix c c2 hk
          subst hc2
          obtain ⟨hw2, hh2⟩ := CacheVal.dims.inj hv
          subst hw2
          subst hh2
          exact ⟨st1, rfl, hst1⟩
      | corr d =>
        rcases hst1 _ _ (jsGet_mem _ _ _ hget2) with ⟨c2, hk, hv⟩ | ⟨c2, hk, hv⟩
        · exact absurd hk.symm (initKey_ne_nameKey cfg.styleSuffix [c2] [c] rfl)
        · cases hv
  unfold calCharDim
  dsimp only
  rw [if_neg (by simp)]
  rcases hget : jsGet st.cache ([c] ++ "init".data ++ cfg.styleSuffix) with _ | val
  · rw [hcorr0]
    dsimp only
    exact stage2 _ (measInv_insertEvict cfg m w0 st _ _ (Or.inl ⟨c, rfl, rfl⟩) hst)
  · cases val with
    | corr d =>
      have hd0 : d = 0 := by
        rcases hst _ _ (jsGet_mem _ _ _ hget) with ⟨c2, hk, hv⟩ | ⟨c2, hk, hv⟩
        · exact (CacheVal.corr.inj hv)
        · exact absurd hk (initKey_ne_nameKey cfg.styleSuffix [c] [c2] rfl)
      subst hd0
      dsimp only
      exact stage2 st hst
    | dims w h =>
      exfalso
      rcases hst _ _ (jsGet_mem _ _ _ hget) with ⟨c2, hk, hv⟩ | ⟨c2, hk, hv⟩
      · cases hv
      · exact absurd hk (initKey_ne_nameKey cfg.styleSuffix [c] [c2] rfl)

end Smartlabel

namespace Smartlabel

theorem oriFold_additive (cfg : Config) (m : Oracle) (w0 : Char → ℚ)
    (hadd : IsAdditive m w0) (L : Nat) :
    ∀ (chars : List Char) (st : AdvState) (cum hmax : ℚ) (det : List (List Char × ℚ)),
      measInv cfg m w0 st → detailConform w0 det →
      ∃ g st2, oriFold cfg m L chars st cum hmax det = (some g, st2)
        ∧ detailConform w0 g.detail := by
  intro chars
  induction chars with
  | nil =>
    intro st cum hmax det hst hdet
    exact ⟨_, st, rfl, hdet⟩
  | cons c rest ih =>
    intro st cum hmax det hst hdet
    obtain ⟨st1, hstep, hst1⟩ := calCharDim_additive cfg m w0 hadd c L st hst
    rw [oriFold, hstep]
    exact ih st1 _ _ _ hst1 (by
      intro k v hkv
      rcases mem_jsSetQ_val _ _ _ _ _ hkv with ⟨rfl, rfl⟩ | h
      · exact ⟨c, rfl, rfl⟩
      · exact hdet k v h)

theorem getOriSize_additive (cfg : Config) (m : Oracle) (w0 : Char → ℚ)
    (hadd : IsAdditive m w0) (text : List Char) :
    ∃ g st2, getOriSizeDetailed cfg m text AdvState.empty = (some g, st2)
      ∧ detailConform w0 g.detail := by
  obtain ⟨g, st2, h1, h2⟩ := oriFold_additive cfg m w0 hadd text.length text
    AdvState.empty 0 0 [] (by intro k v hkv; simp [AdvState.empty] at hkv)
    (by intro k v hkv; simp at hkv)
  exact ⟨g, st2, h1, h2⟩

theorem w0_le_sumW_replSpl (w0 : Char → ℚ) (_hpos : ∀ c, 0 < w0 c)
    (hnbsp : w0 ' ' ≤ sumW w0 "&nbsp;".data) (c : Char) :
    w0 c ≤ sumW w0 (replSpl [c]) := by
  unfold replSpl
  by_cases hc : c = ' '
  · subst hc
    rw [if_pos rfl]
    exact hnbsp
  · rw [if_neg (by simp [hc])]
    simp [sumW]

theorem sumW_replSpl_pos (w0 : Char → ℚ) (hpos : ∀ c, 0 < w0 c) (c : Char) :
    0 < sumW w0 (replSpl [c]) := by
  unfold replSpl
  by_cases hc : ([c] : List Char) = [' ']
  · rw [if_pos hc]
    exact sumW_pos w0 hpos _ _
  · rw [if_neg hc]
    exact sumW_pos w0 hpos _ _

theorem charWidth_bound (m : Oracle) (w0 : Char → ℚ)
    (hadd : IsAdditive m w0) (hpos : ∀ c, 0 < w0 c)
    (hnbsp : w0 ' ' ≤ sumW w0 "&nbsp;".data)
    (cache : CharCache) (detail : List (List Char × ℚ))
    (hc : cacheConform w0 cache) (hd : detailConform w0 detail) (c : Char) :
    w0 c ≤ (charWidth m cache detail [c]).1
    ∧ cacheConform w0 (charWidth m cache detail [c]).2 := by
  have hwc : m.w [c] = w0 c := by
    rw [hadd]
    simp [sumW]
  unfold charWidth
  rcases hg : jsGetQ cache [c] with _ | wv
  · rcases hgd : jsGetQ detail [c] with _ | dv
    · dsimp only
      refine ⟨by rw [hwc], ?_⟩
      intro k v hkv
      rcases mem_jsSetQ_val _ _ _ _ _ hkv with ⟨rfl, rfl⟩ | h
      · exact ⟨c, rfl, by rw [hwc]⟩
      · exact hc k v h
    · obtain ⟨c2, hk, hv⟩ := hd _ _ (jsGetQ_mem _ _ _ hgd)
      have hcc : c = c2 := by
        injection hk with h1 _
      subst hcc
      subst hv
      have hdvpos : (0 : ℚ) < sumW w0 (replSpl [c]) := sumW_replSpl_pos w0 hpos c
      have hdvne : sumW w0 (replSpl [c]) ≠ 0 := ne_of_gt hdvpos
      dsimp only
      rw [if_pos hdvne]
      refine ⟨w0_le_sumW_replSpl w0 hpos hnbsp c, ?_⟩
      intro k v hkv
      rcases mem_jsSetQ_val _ _ _ _ _ hkv with ⟨rfl, rfl⟩ | h
      · exact ⟨c, rfl, w0_le_sumW_replSpl w0 hpos hnbsp c⟩
      · exact hc k v h
  · obtain ⟨c2, hk, hv⟩ := hc _ _ (jsGetQ_mem _ _ _ hg)
    have hcc : c = c2 := by
      injection hk with h1 _
    subst hcc
    dsimp only
    exact ⟨hv, hc⟩

end Smartlabel

namespace Smartlabel

theorem noWrapLoop_bound (m : Oracle) (cfg : Config) (b : BaseInfo) (w0 : Char → ℚ)
    (maxWidth budget : ℚ) (ell : List Char) (detail : List (List Char × ℚ))
    (hadd : IsAdditive m w0) (hpos : ∀ c, 0 < w0 c)
    (hnbsp : w0 ' ' ≤ sumW w0 "&nbsp;".data)
    (hd : detailConform w0 detail)
    (hbe : budget + sumW w0 ell ≤ maxWidth) :
    ∀ (rest consumed : List Char) (strWidth0 : ℚ) (trimStr0 : Option (List Char))
      (cache0 : CharCache),
      cacheConform w0 cache0 →
      strWidth0 ≤ maxWidth →
      sumW w0 consumed ≤ strWidth0 →
      (trimStr0 = none → strWidth0 ≤ budget ∨ ell = []) →
      (∀ t, trimStr0 = some t → sumW w0 t + sumW w0 ell ≤ maxWidth) →
      (consumed = [] → trimStr0 = none ∧ strWidth0 = 0 ∧
        (ell ≠ [] → ∀ c rest2, rest = c :: rest2 →
          (charWidth m cache0 detail [c]).1 ≤ budget)) →
      (trimStr0 = some [] → ell = []) →
      (noWrapLoop m cfg b maxWidth budget ell rest consumed strWidth0 trimStr0
        cache0 detail).width ≤ maxWidth
      ∧ (noWrapLoop m cfg b maxWidth budget ell rest consumed strWidth0 trimStr0
        cache0 detail).height = cfg.lineHeight := by
  have hbudmax : budget ≤ maxWidth := by
    have := sumW_nonneg w0 hpos ell
    linarith
  intro rest
  induction rest with
  | nil =>
    intro consumed strWidth0 trimStr0 cache0 _ hJ1 _ _ _ _ _
    rw [noWrapLoop]
    exact ⟨hJ1, rfl⟩
  | cons c rest ih =>
    intro consumed strWidth0 trimStr0 cache0 hcc hJ1 hJ2 hJ3 hJ4 hJ5 hJ6
    obtain ⟨hmw, hcache1⟩ := charWidth_bound m w0 hadd hpos hnbsp cache0 detail hcc hd c
    have hsum1 : sumW w0 (consumed ++ [c]) ≤ strWidth0 + (charWidth m cache0 detail [c]).1 := by
      rw [sumW_append, sumW_cons, sumW_nil]
      linarith
    rw [noWrapLoop]
    dsimp only
    by_cases h1 : strWidth0 + (charWidth m cache0 detail [c]).1 > budget
    · rw [if_pos h1]
      have htrim : ∀ t', (if jsTruthyStr trimStr0 then trimStr0
            else some (jsSliceL (consumed ++ [c]) 0 (-1))) = some t' →
          sumW w0 t' + sumW w0 ell ≤ maxWidth := by
        intro t' ht'
        rcases trimStr0 with _ | t
        · rw [show jsTruthyStr none = false from rfl] at ht'
          rw [if_neg (by simp)] at ht'
          rw [jsSliceL_init] at ht'
          obtain rfl : consumed = t' := Option.some.inj ht'
          rcases hJ3 rfl with hsb | hel
          · linarith [hJ2, hbe]
          · rw [hel, sumW_nil]
            linarith [hJ2, hJ1]
        · rcases t with _ | ⟨x, xs⟩
          · rw [show jsTruthyStr (some []) = false from rfl] at ht'
            rw [if_neg (by simp)] at ht'
            rw [jsSliceL_init] at ht'
            obtain rfl : consumed = t' := Option.some.inj ht'
            rw [hJ6 rfl, sumW_nil]
            linarith [hJ2, hJ1]
          · rw [show jsTruthyStr (some (x :: xs)) = true from rfl] at ht'
            rw [if_pos rfl] at ht'
            exact hJ4 t' ht'
      have htrim2 : ∃ t', (if jsTruthyStr trimStr0 then trimStr0
          else some (jsSliceL (consumed ++ [c]) 0 (-1))) = some t' := by
        rcases trimStr0 with _ | t
        · exact ⟨_, by rw [if_neg (by simp [jsTruthyStr])]⟩
        · rcases t with _ | ⟨x, xs⟩
          · exact ⟨_, by rw [if_neg (by simp [jsTruthyStr])]⟩
          · exact ⟨x :: xs, by rw [if_pos (by simp [jsTruthyStr])]⟩
      by_cases h2 : strWidth0 + (charWidth m cache0 detail [c]).1 > maxWidth
      · rw [if_pos h2]
        obtain ⟨t', ht'⟩ := htrim2
        rw [ht']
        dsimp only
        constructor
        · rw [hadd, sumW_append]
          have h3 := sumW_fastTrim_le w0 hpos t'
          have h4 := htrim t' ht'
          simp only [Option.getD_some]
          linarith
        · rfl
      · rw [if_neg h2]
        obtain ⟨t', ht'⟩ := htrim2
        rw [ht']
        refine ih (consumed ++ [c]) _ (some t') _ hcache1 (le_of_not_lt h2) hsum1
          (by intro hh; cases hh) (by
            intro t ht
            exact (Option.some.inj ht) ▸ htrim t' ht') (by intro hh; simp at hh) ?_
        intro hh
        obtain rfl : t' = [] := Option.some.inj hh
        -- t' = []: the trim was just set to [] or carried; show ell = []
        rcases trimStr0 with _ | t
        · rw [show jsTruthyStr none = false from rfl] at ht'
          rw [if_neg (by simp)] at ht'
          rw [jsSliceL_init] at ht'
          have hcons : consumed = [] := Option.some.inj ht'
          obtain ⟨htn, hsw0, hfirst⟩ := hJ5 hcons
          by_contra hell
          have := hfirst hell c rest rfl
          rw [hsw0] at h1
          linarith
        · rcases t with _ | ⟨x, xs⟩
          · exact hJ6 rfl
          · rw [show jsTruthyStr (some (x :: xs)) = true from rfl] at ht'
            rw [if_pos rfl] at ht'
            cases Option.some.inj ht'
    · rw [if_neg h1]
      refine ih (consumed ++ [c]) _ trimStr0 _ hcache1 (by linarith [le_of_not_lt h1, hbudmax]) hsum1
        (fun hh => Or.inl (le_of_not_lt h1)) hJ4 (by intro hh; simp at hh) hJ6

theorem wrapLoop_height_bound (m : Oracle) (cfg : Config) (b : BaseInfo)
    (maxWidth maxHeight budget : ℚ) (ell textC : List Char)
    (detail : List (List Char × ℚ)) :
    ∀ (fuel i : Nat) (tempArr0 : List (List Char))
      (strWidth0 strHeight0 maxStrWidth0 : ℚ) (trimStr0 : Option (List Char))
      (lIB : Int) (cache0 : CharCache) (r : SmartLabel),
      strHeight0 ≤ maxHeight →
      wrapLoop m cfg b maxWidth maxHeight budget ell textC detail fuel i tempArr0
        strWidth0 strHeight0 maxStrWidth0 trimStr0 lIB cache0 = some r →
      r.height ≤ maxHeight ∧ (r.tooltext ≠ none → r.width = maxWidth) := by
  intro fuel
  induction fuel with
  | zero => intro i tA sW sH mSW tS lIB c0 r _ hr; cases hr
  | succ fuel ih =>
    intro i tA sW sH mSW tS lIB c0 r hsh hr
    rw [wrapLoop] at hr
    by_cases hi : i < textC.length
    · rw [dif_pos hi] at hr
      dsimp only at hr
      by_cases h1 : sW + (charWidth m c0 detail (wrapKey cfg (textC.get ⟨i, hi⟩))).1 > budget
      · rw [if_pos h1] at hr
        by_cases h2 : sW + (charWidth m c0 detail (wrapKey cfg (textC.get ⟨i, hi⟩))).1 > maxWidth
        · rw [if_pos h2] at hr
          by_cases h3 : sH + cfg.lineHeight > maxHeight
          · rw [if_pos h3] at hr
            obtain rfl := Option.some.inj hr
            refine ⟨by dsimp only; linarith, ?_⟩
            intro _
            rfl
          · rw [if_neg h3] at hr
            exact ih _ _ _ _ _ _ _ _ r (le_of_not_lt h3) hr
        · rw [if_neg h2] at hr
          exact ih _ _ _ _ _ _ _ _ r hsh hr
      · rw [if_neg h1] at hr
        exact ih _ _ _ _ _ _ _ _ r hsh hr
    · rw [dif_neg hi] at hr
      obtain rfl := Option.some.inj hr
      exact ⟨hsh, fun hn => absurd rfl hn⟩


/-- C8 (amended): under an additive measurement oracle with positive
per-character widths, dot and ellipsis widths consistent with the oracle and
an nbsp at least as wide as a space, every non-empty result of the plain-text
path has height at most the effective maximum height; in no-wrap mode its
width never exceeds maxWidth, and in wrap mode a truncated result (one
carrying a tooltip) reports width exactly maxWidth. -/
theorem C8_bounds_amended (cfg : Config) (m : Oracle) (w0 : Char → ℚ)
    (text : List Char) (maxWidth maxHeight : ℚ) (noWrap : Bool) (r : SmartLabel)
    (hadd : IsAdditive m w0) (hpos : ∀ c, 0 < w0 c)
    (hdot : cfg.dotWidth = w0 '.')
    (hell : cfg.ellipsesWidth = sumW w0 "...".data)
    (hnbsp : w0 ' ' ≤ sumW w0 "&nbsp;".data)
    (hr : getSmartTextPlain cfg m text maxWidth maxHeight noWrap AdvState.empty [] = some r)
    (hne : r.text ≠ []) :
    r.height ≤ effMaxHeight cfg maxHeight
    ∧ (noWrap = true → r.width ≤ maxWidth)
    ∧ (noWrap = false → r.tooltext ≠ none → r.width = maxWidth) := by
  obtain ⟨g, st2, hg, hdet⟩ := getOriSize_additive cfg m w0 hadd (ltgtReplace text)
  unfold getSmartTextPlain at hr
  dsimp only at hr
  rw [hg] at hr
  dsimp only at hr
  have hm1 : ∀ c, m.w [c] = w0 c := by
    intro c
    rw [hadd]
    simp [sumW]
  by_cases hfit : g.height ≤ effMaxHeight cfg maxHeight ∧ g.width ≤ maxWidth
  · rw [if_pos hfit] at hr
    obtain rfl := Option.some.inj hr
    exact ⟨hfit.1, fun _ => hfit.2, fun _ hn => absurd rfl hn⟩
  rw [if_neg hfit] at hr
  by_cases hlh : cfg.lineHeight > effMaxHeight cfg maxHeight
  · rw [if_pos hlh] at hr
    obtain rfl := Option.some.inj hr
    exact absurd rfl hne
  rw [if_neg hlh] at hr
  have hlh2 : cfg.lineHeight ≤ effMaxHeight cfg maxHeight := le_of_not_lt hlh
  set text2 := collapseWs (fastTrim text) with htx
  clear_value text2
  set budget0 := (if cfg.showNoEllipses = true then maxWidth else maxWidth - cfg.ellipsesWidth) with hbud0
  set ell0 := (if cfg.showNoEllipses = true then ([] : List Char) else ['.', '.', '.']) with hell0def
  have hbe0 : budget0 + sumW w0 ell0 ≤ maxWidth := by
    rw [hbud0, hell0def]
    by_cases hs : cfg.showNoEllipses = true
    · rw [if_pos hs, if_pos hs, sumW_nil]
      linarith
    · rw [if_neg hs, if_neg hs, hell]
      rw [show ("...".data : List Char) = ['.', '.', '.'] from rfl]
      linarith
  clear_value budget0
  clear_value ell0
  set minW := (seedMinWidth m [] (firstChar text2)).1 with hminWdef
  clear_value minW
  set cache1 := (seedMinWidth m [] (firstChar text2)).2 with hcache1def
  clear_value cache1
  set n := nearestBreakIndex m text2 budget0 with hndef
  clear_value n
  rcases text2 with _ | ⟨c0, tl⟩
  · -- normalized text empty: every remaining return path carries empty text
    have hn0 : n = 0 := by rw [hndef, nearestBreakIndex]
    subst hn0
    rw [List.take_nil, List.drop_nil, List.length_nil, List.map_nil] at hr
    by_cases h1 : budget0 > minW
    · rw [if_pos h1] at hr
      cases noWrap with
      | true =>
        rw [if_pos rfl] at hr
        simp only [noWrapLoop] at hr
        obtain rfl := Option.some.inj hr
        exact absurd rfl hne
      | false =>
        rw [if_neg (by simp)] at hr
        simp only [wrapLoop] at hr
        rw [dif_neg (by simp)] at hr
        obtain rfl := Option.some.inj hr
        exact absurd rfl hne
    · rw [if_neg h1] at hr
      by_cases h2 : minW > maxWidth
      · rw [if_pos h2] at hr
        obtain rfl := Option.some.inj hr
        exact absurd rfl hne
      · rw [if_neg h2] at hr
        cases noWrap with
        | true =>
          rw [if_pos rfl] at hr
          simp only [noWrapLoop] at hr
          obtain rfl := Option.some.inj hr
          exact absurd rfl hne
        | false =>
          rw [if_neg (by simp)] at hr
          simp only [wrapLoop] at hr
          rw [dif_neg (by simp)] at hr
          obtain rfl := Option.some.inj hr
          exact absurd rfl hne
  · -- normalized text nonempty: the seeded cache is the first letter alone
    have hseed : seedMinWidth m [] (firstChar (c0 :: tl)) = (w0 c0, [([c0], w0 c0)]) := by
      simp [seedMinWidth, firstChar, jsGetQ, jsSetQ, hm1 c0]
    have hminW : minW = w0 c0 := by rw [hminWdef, hseed]
    have hc1 : cache1 = [([c0], w0 c0)] := by rw [hcache1def, hseed]
    subst hminW
    subst hc1
    have hcc : cacheConform w0 [([c0], w0 c0)] := by
      intro k v hkv
      simp at hkv
      obtain ⟨rfl, rfl⟩ := hkv
      exact ⟨c0, rfl, le_refl _⟩
    have hcwhit : charWidth m [([c0], w0 c0)] g.detail [c0] = (w0 c0, [([c0], w0 c0)]) := by
      simp [charWidth, jsGetQ]
    by_cases h1 : budget0 > w0 c0
    · rw [if_pos h1] at hr
      have hb0nn : (0 : ℚ) ≤ budget0 := le_of_lt (lt_trans (hpos c0) h1)
      have hnle : sumW w0 (List.take n (c0 :: tl)) ≤ budget0 := by
        rw [hndef]
        exact nearest_le m w0 hm1 _ _ hb0nn
      have hswle : m.w (List.take n (c0 :: tl)) ≤ budget0 := by
        rw [hadd]
        exact hnle
      have hbud_le_max : budget0 ≤ maxWidth := by
        have := sumW_nonneg w0 hpos ell0
        linarith
      cases noWrap with
      | true =>
        rw [if_pos rfl] at hr
        obtain rfl := Option.some.inj hr
        have hJ5 : List.take n (c0 :: tl) = [] → (none : Option (List Char)) = none
            ∧ m.w (List.take n (c0 :: tl)) = 0
            ∧ (ell0 ≠ [] → ∀ c rest2, List.drop n (c0 :: tl) = c :: rest2 →
                (charWidth m [([c0], w0 c0)] g.detail [c]).1 ≤ budget0) := by
          intro htake
          have hn0 : n = 0 := by
            rcases List.take_eq_nil_iff.mp htake with h | h
            · exact h
            · cases h
          refine ⟨rfl, by rw [htake, hadd, sumW_nil], ?_⟩
          intro _ c rest2 hdrop
          rw [hn0, List.drop_zero] at hdrop
          injection hdrop with hc _
          subst hc
          rw [hcwhit]
          exact le_of_lt h1
        obtain ⟨hw, hh⟩ := noWrapLoop_bound m cfg
          ⟨text, maxWidth, maxHeight, g.width, g.height⟩ w0 maxWidth budget0 ell0
          g.detail hadd hpos hnbsp hdet hbe0
          (List.drop n (c0 :: tl)) (List.take n (c0 :: tl))
          (m.w (List.take n (c0 :: tl))) none [([c0], w0 c0)]
          hcc (le_trans hswle hbud_le_max) (le_of_eq (hadd _).symm)
          (fun _ => Or.inl hswle) (fun t ht => Option.noConfusion ht) hJ5 (fun h6 => Option.noConfusion h6)
        exact ⟨by rw [hh]; exact hlh2, fun _ => hw, fun hfalse => Bool.noConfusion hfalse⟩
      | false =>
        rw [if_neg (by simp)] at hr
        obtain ⟨hh, hw⟩ := wrapLoop_height_bound m cfg
          ⟨text, maxWidth, maxHeight, g.width, g.height⟩ maxWidth
          (effMaxHeight cfg maxHeight) budget0 ell0 (c0 :: tl) g.detail
          _ _ _ _ _ _ _ _ _ r hlh2 hr
        exact ⟨hh, fun htrue => Bool.noConfusion htrue, fun _ => hw⟩
    · rw [if_neg h1] at hr
      by_cases h2 : w0 c0 > maxWidth
      · rw [if_pos h2] at hr
        obtain rfl := Option.some.inj hr
        exact absurd rfl hne
      rw [if_neg h2] at hr
      have h2le : w0 c0 ≤ maxWidth := le_of_not_lt h2
      have hmw0 : (0 : ℚ) ≤ maxWidth := le_trans (le_of_lt (hpos c0)) h2le
      set P := (if ell0 ≠ [] then degradeEllipsis cfg maxWidth (w0 c0)
        else (budget0, ell0)) with hPdef
      have hPfacts : P.1 + sumW w0 P.2 ≤ maxWidth ∧ (P.2 ≠ [] → w0 c0 < P.1) := by
        rw [hPdef]
        by_cases he0 : ell0 ≠ []
        · rw [if_pos he0]
          unfold degradeEllipsis
          by_cases hb2 : maxWidth - 2 * cfg.dotWidth > w0 c0
          · rw [if_pos hb2]
            dsimp only
            refine ⟨?_, fun _ => hb2⟩
            rw [show sumW w0 ['.', '.'] = w0 '.' + (w0 '.' + 0) from rfl, hdot]
            linarith
          · rw [if_neg hb2]
            dsimp only
            by_cases hb1 : maxWidth - cfg.dotWidth > w0 c0
            · rw [if_pos hb1]
              dsimp only
              refine ⟨?_, fun _ => hb1⟩
              rw [show sumW w0 ['.'] = w0 '.' + 0 from rfl, hdot]
              linarith
            · rw [if_neg hb1]
              dsimp only
              rw [sumW_nil]
              exact ⟨by linarith, fun hcontra => absurd rfl hcontra⟩
        · rw [if_neg he0]
          refine ⟨hbe0, ?_⟩
          intro hcontra
          exact absurd (not_not.mp he0) hcontra
      cases noWrap with
      | true =>
        rw [if_pos rfl] at hr
        obtain rfl := Option.some.inj hr
        have hJ3 : (none : Option (List Char)) = none → m.w [] ≤ P.1 ∨ P.2 = [] := by
          intro _
          rcases eq_or_ne P.2 [] with he | he
          · exact Or.inr he
          · refine Or.inl ?_
            rw [hadd, sumW_nil]
            exact le_of_lt (lt_trans (hpos c0) (hPfacts.2 he))
        have hJ5 : ([] : List Char) = [] → (none : Option (List Char)) = none
            ∧ m.w [] = 0
            ∧ (P.2 ≠ [] → ∀ c rest2, (c0 :: tl) = c :: rest2 →
                (charWidth m [([c0], w0 c0)] g.detail [c]).1 ≤ P.1) := by
          intro _
          refine ⟨rfl, by rw [hadd, sumW_nil], ?_⟩
          intro he c rest2 hdrop
          injection hdrop with hc _
          subst hc
          rw [hcwhit]
          exact le_of_lt (hPfacts.2 he)
        obtain ⟨hw, hh⟩ := noWrapLoop_bound m cfg
          ⟨text, maxWidth, maxHeight, g.width, g.height⟩ w0 maxWidth P.1 P.2
          g.detail hadd hpos hnbsp hdet hPfacts.1
          (c0 :: tl) [] (m.w []) none [([c0], w0 c0)]
          hcc (by rw [hadd, sumW_nil]; exact hmw0) (le_of_eq (hadd _).symm)
          hJ3 (fun t ht => Option.noConfusion ht) hJ5 (fun h6 => Option.noConfusion h6)
        exact ⟨by rw [hh]; exact hlh2, fun _ => hw, fun hfalse => Bool.noConfusion hfalse⟩
      | false =>
        rw [if_neg (by simp)] at hr
        obtain ⟨hh, hw⟩ := wrapLoop_height_bound m cfg
          ⟨text, maxWidth, maxHeight, g.width, g.height⟩ maxWidth
          (effMaxHeight cfg maxHeight) P.1 P.2 (c0 :: tl) g.detail
          _ _ _ _ _ _ _ _ _ r hlh2 hr
        exact ⟨hh, fun htrue => Bool.noConfusion htrue, fun _ => hw⟩


theorem C8_bounds_amended_witness :
    c8rec.height ≤ effMaxHeight cfgAdd3 12
    ∧ (true = true → c8rec.width ≤ 20)
    ∧ (true = false → c8rec.tooltext ≠ none → c8rec.width = 20) :=
  C8_bounds_amended cfgAdd3 (addOracle w3 7) w3 "abcdefgh".data 20 12 true c8rec
    (fun _ => rfl) (fun _ => by norm_num [w3])
    (by with_unfolding_all rfl) (by with_unfolding_all rfl)
    (by with_unfolding_all decide)
    (by with_unfolding_all rfl) (by decide)

end Smartlabel
